import Mathlib

/-!
# license-report-recursive: dependency selection and report ordering

A shallow embedding of `lib/util.js` (`isNullOrUndefined`, `alphaSort`) and
`lib/getDependencies.js` (`getDependencies`), followed by the properties proved about them.

JavaScript values are embedded as follows.

* A string is a Lean `String`; the relational operators `<` and `>` on strings compare
  the sequences of UTF-16 code units, which is what `strLt` does.
* The built-in `String.prototype.toLowerCase` is a parameter `toLowerCase : String → String`
  of `alphaSort`: the theorems hold for every such function.
* A property that may be absent (`undefined`) is an `Option`.
* A call that can throw returns an `Option`, `none` being the throw.
* An array is a `List`; an object used as a mapping is the list of its entries in
  insertion order, and `propertyOrder` gives the order in which they are enumerated.
-/

namespace LicenseReport

/-! ## Strings -/

/-- The UTF-16 code units of one character. -/
def charUnits (c : Char) : List Nat :=
  if c.toNat < 0x10000 then [c.toNat]
  else [0xD800 + (c.toNat - 0x10000) / 0x400, 0xDC00 + (c.toNat - 0x10000) % 0x400]

/-- The UTF-16 code units of a list of characters. -/
def unitsOfChars : List Char → List Nat
  | [] => []
  | c :: cs => charUnits c ++ unitsOfChars cs

/-- The UTF-16 code units of a string. -/
def codeUnits (s : String) : List Nat := unitsOfChars s.data

/-- Lexicographic "less than" on code unit sequences: a proper prefix is smaller. -/
def ltUnits : List Nat → List Nat → Bool
  | [], [] => false
  | [], _ :: _ => true
  | _ :: _, [] => false
  | x :: xs, y :: ys => if x < y then true else if y < x then false else ltUnits xs ys

/-- The JavaScript comparison `a < b` of two strings (`a > b` is `strLt b a`). -/
def strLt (a b : String) : Bool := ltUnits (codeUnits a) (codeUnits b)

/-! ## Semantic versions -/

/-- One dot-separated identifier of a pre-release tag: numeric, or alphanumeric. -/
inductive Identifier where
  | num (n : Nat)
  | str (s : List Char)
  deriving DecidableEq

/-- A parsed semantic version. -/
structure SemVer where
  major : Nat
  minor : Nat
  patch : Nat
  prerelease : List Identifier
  build : List (List Char)
  deriving DecidableEq

namespace semver

/-- Decimal digit test. -/
def isDigit (c : Char) : Bool := decide (48 ≤ c.toNat) && decide (c.toNat ≤ 57)

/-- Test for the characters allowed in an identifier: `0-9`, `A-Z`, `a-z` and `-`. -/
def isIdentChar (c : Char) : Bool :=
  isDigit c || (decide (65 ≤ c.toNat) && decide (c.toNat ≤ 90))
    || (decide (97 ≤ c.toNat) && decide (c.toNat ≤ 122)) || decide (c.toNat = 45)

/-- The value of a string of decimal digits, most significant digit first. -/
def digitsValue : List Char → Nat → Nat
  | [], acc => acc
  | c :: cs, acc => digitsValue cs (10 * acc + (c.toNat - 48))

/-- Split a list of characters at every occurrence of `sep`. -/
def splitOn (sep : Char) : List Char → List (List Char)
  | [] => [[]]
  | c :: cs =>
    if c = sep then [] :: splitOn sep cs
    else
      match splitOn sep cs with
      | [] => [[c]]
      | w :: ws => (c :: w) :: ws

/-- The characters before the first one satisfying `p`, and the rest from that one on. -/
def breakAt (p : Char → Bool) : List Char → List Char × List Char
  | [] => ([], [])
  | c :: cs => if p c then ([], c :: cs) else ((breakAt p cs).1.cons c, (breakAt p cs).2)

/-- Collect a list of optional values; `none` as soon as one is missing. -/
def allSome {α : Type} : List (Option α) → Option (List α)
  | [] => some []
  | none :: _ => none
  | some x :: xs =>
    match allSome xs with
    | some ys => some (x :: ys)
    | none => none

/-- A numeric identifier `0|[1-9][0-9]*`. -/
def numericIdentifier (cs : List Char) : Option Nat :=
  match cs with
  | [] => none
  | c :: rest =>
    if cs.all isDigit && (rest.isEmpty || c != '0') then some (digitsValue cs 0) else none

/-- A pre-release identifier: a numeric identifier, or a non-empty run of identifier characters
with at least one non-digit. -/
def prereleaseIdentifier (cs : List Char) : Option Identifier :=
  if cs.isEmpty then none
  else if cs.all isDigit then (numericIdentifier cs).map Identifier.num
  else if cs.all isIdentChar then some (Identifier.str cs)
  else none

/-- A build identifier: a non-empty run of identifier characters. -/
def buildIdentifier (cs : List Char) : Option (List Char) :=
  if !cs.isEmpty && cs.all isIdentChar then some cs else none

/-- The part after `+`: dot-separated build identifiers. -/
def parseBuild (cs : List Char) : Option (List (List Char)) :=
  allSome ((splitOn '.' cs).map buildIdentifier)

/-- The part after `-` and before `+`: dot-separated pre-release identifiers. -/
def parsePrerelease (cs : List Char) : Option (List Identifier) :=
  allSome ((splitOn '.' cs).map prereleaseIdentifier)

/-- Modelled from the spec: the `semver` package is an external dependency of the repository and
its source is not part of it. The spec speaks of "syntactically valid semantic versions"; this is
the grammar of Semantic Versioning 2.0.0, `MAJOR.MINOR.PATCH[-PRERELEASE][+BUILD]`. -/
def parse (s : String) : Option SemVer :=
  let (main, rest) := breakAt (fun c => c = '-' || c = '+') s.data
  match (splitOn '.' main).map numericIdentifier with
  | [some major, some minor, some patch] =>
    match rest with
    | [] => some ⟨major, minor, patch, [], []⟩
    | '+' :: b =>
      match parseBuild b with
      | some build => some ⟨major, minor, patch, [], build⟩
      | none => none
    | _ :: r =>
      let (pre, rest2) := breakAt (fun c => c = '+') r
      match parsePrerelease pre, rest2 with
      | some prerelease, [] => some ⟨major, minor, patch, prerelease, []⟩
      | some prerelease, _ :: b =>
        match parseBuild b with
        | some build => some ⟨major, minor, patch, prerelease, build⟩
        | none => none
      | none, _ => none
  | _ => none

/-- Comparison of two numbers: `-1`, `0` or `1`. -/
def compareNat (a b : Nat) : Int := if a = b then 0 else if a < b then -1 else 1

/-- Precedence of two pre-release identifiers: numeric ones by value, alphanumeric ones in ASCII
order, and a numeric identifier before an alphanumeric one. -/
def compareIdentifiers : Identifier → Identifier → Int
  | .num a, .num b => compareNat a b
  | .num _, .str _ => -1
  | .str _, .num _ => 1
  | .str a, .str b =>
    if ltUnits (a.map Char.toNat) (b.map Char.toNat) then -1
    else if ltUnits (b.map Char.toNat) (a.map Char.toNat) then 1
    else 0

/-- Identifier by identifier, left to right; when one list is a prefix of the other, the
longer one is greater. -/
def compareIds : List Identifier → List Identifier → Int
  | [], [] => 0
  | [], _ :: _ => -1
  | _ :: _, [] => 1
  | x :: xs, y :: ys =>
    if compareIdentifiers x y ≠ 0 then compareIdentifiers x y else compareIds xs ys

/-- Precedence by `major`, then `minor`, then `patch`. -/
def compareMain (a b : SemVer) : Int :=
  if compareNat a.major b.major ≠ 0 then compareNat a.major b.major
  else if compareNat a.minor b.minor ≠ 0 then compareNat a.minor b.minor
  else compareNat a.patch b.patch

/-- Precedence of the pre-release tags: a version without one is greater than a version
with one. -/
def comparePre (a b : SemVer) : Int :=
  match a.prerelease, b.prerelease with
  | [], [] => 0
  | _ :: _, [] => -1
  | [], _ :: _ => 1
  | x :: xs, y :: ys => compareIds (x :: xs) (y :: ys)

/-- Modelled from the spec: "semantic-version precedence" of the absent `semver` package, as
Semantic Versioning 2.0.0 defines it: main version first, then the pre-release tag; build
metadata is ignored. -/
def compare (a b : SemVer) : Int :=
  if compareMain a b ≠ 0 then compareMain a b else comparePre a b

/-- Modelled from the spec: `semver.valid` of the absent `semver` package, reduced to the
truthiness of its result, the only thing `alphaSort` uses: `true` exactly for a string that is
a syntactically valid semantic version. -/
def valid (version : Option String) : Bool :=
  match version with
  | some s => (parse s).isSome
  | none => false

/-- Modelled from the spec: `semver.lt` of the absent `semver` package; it throws (`none`) when
an argument is not a valid version. -/
def lt (a b : Option String) : Option Bool :=
  match a, b with
  | some s, some t =>
    match parse s, parse t with
    | some x, some y => some (decide (compare x y < 0))
    | _, _ => none
  | _, _ => none

/-- Modelled from the spec: `semver.gt` of the absent `semver` package; it throws (`none`) when
an argument is not a valid version. -/
def gt (a b : Option String) : Option Bool :=
  match a, b with
  | some s, some t =>
    match parse s, parse t with
    | some x, some y => some (decide (compare x y > 0))
    | _, _ => none
  | _, _ => none

end semver

/-! ## Records -/

/-- A package data object. `name` is `none` when the property is missing, `installedVersion`
is `none` when it is missing or not a string, `isRootNode` is `none` when it is missing, and
`path` is `none` until `getDependencies` sets it. `fullName` is the name the path is built
from and `version` the version range of the manifest entry. -/
structure DependencyRecord where
  name : Option String
  fullName : String
  version : String
  installedVersion : Option String
  isRootNode : Option Bool
  path : Option String
  deriving DecidableEq

/-! ## `lib/util.js` -/

/-- The value `elementA.isRootNode || false` as a condition. -/
def isRoot (element : DependencyRecord) : Bool := element.isRootNode.getD false

/-- The last tier of `alphaSort`: packages with `isRootNode` come first. -/
def rootTier (elementA elementB : DependencyRecord) : Int :=
  let aIsRoot := isRoot elementA
  let bIsRoot := isRoot elementB
  if aIsRoot && !bIsRoot then -1
  else if !aIsRoot && bIsRoot then 1
  else 0

/-- Comparison function `alphaSort` of `lib/util.js`. The first argument is the built-in
`String.prototype.toLowerCase`. The result is `none` when the call throws: a missing `name`
has no `toLowerCase`. -/
def alphaSort (toLowerCase : String → String) (elementA elementB : DependencyRecord) :
    Option Int :=
  match elementA.name, elementB.name with
  | some nameA, some nameB =>
    let a := toLowerCase nameA
    let b := toLowerCase nameB
    if strLt a b then some (-1)
    else if strLt b a then some 1
    else
      -- names are equal > check installedVersion
      let aVersion := elementA.installedVersion
      let bVersion := elementB.installedVersion
      if semver.valid aVersion && semver.valid bVersion then
        match semver.lt aVersion bVersion with
        | none => none
        | some true => some (-1)
        | some false =>
          match semver.gt aVersion bVersion with
          | none => none
          | some true => some 1
          | some false => some (rootTier elementA elementB)
      else
        -- name and installedVersion are equal > check isRootNode
        some (rootTier elementA elementB)
  | _, _ => none

/-- The value passed as `inclusions`: the documented ones (`undefined`, `null`, an array of
strings) and the other kinds of value a caller can pass. -/
inductive Value where
  | undefined
  | null
  | array (items : List String)
  | string (s : String)
  | number (n : Int)
  | object
  deriving DecidableEq

/-- Function `isNullOrUndefined` of `lib/util.js`. -/
def isNullOrUndefined (element : Value) : Bool :=
  decide (element = Value.undefined) || decide (element = Value.null)

/-! ## `lib/getDependencies.js` -/

/-- One dependency group of a `package.json`: the entries (package name, version range) of the
object in insertion order, which for a parsed file is the order in which they are written. -/
abbrev Packages := List (String × String)

/-- The part of a `package.json` that `getDependencies` reads; a group is `none` when the
property is `undefined`. -/
structure PackageJson where
  dependencies : Option Packages
  devDependencies : Option Packages
  peerDependencies : Option Packages
  optionalDependencies : Option Packages
  deriving DecidableEq

/-- The built-in `Array.isArray`. -/
def isArray (v : Value) : Bool :=
  match v with
  | .array _ => true
  | _ => false

/-- The built-in `Array.prototype.indexOf` on an array of strings, from position `i` on: the
index of the first element equal to `x`, or `-1`. -/
def indexOfFrom (x : String) : List String → Int → Int
  | [], _ => -1
  | y :: ys, i => if y = x then i else indexOfFrom x ys (i + 1)

/-- Whether the code units `t` stand at the start of the code units `s`. -/
def startsWithUnits : List Nat → List Nat → Bool
  | _, [] => true
  | [], _ :: _ => false
  | x :: xs, y :: ys => decide (x = y) && startsWithUnits xs ys

/-- The built-in `String.prototype.indexOf` on code units, from position `i` on: the position
of the first occurrence of `t` in `s`, or `-1`. -/
def searchUnits (t : List Nat) : List Nat → Int → Int
  | [], i => if t.isEmpty then i else -1
  | x :: xs, i => if startsWithUnits (x :: xs) t then i else searchUnits t xs (i + 1)

/-- The call `inclusions.indexOf(tag)`. It is `none` when the call throws a `TypeError`:
`null` and `undefined` have no properties, and a number or a plain object has no method
`indexOf`. On an array it is `Array.prototype.indexOf`, on a string
`String.prototype.indexOf`. -/
def indexOf (inclusions : Value) (tag : String) : Option Int :=
  match inclusions with
  | .array items => some (indexOfFrom tag items 0)
  | .string s => some (searchUnits (codeUnits tag) (codeUnits s) 0)
  | .undefined => none
  | .null => none
  | .number _ => none
  | .object => none

/-- The condition `noDepsTypeDefined || inclusions.indexOf(tag) > -1`: the right operand is
evaluated only when the left one is false; `none` when it throws. -/
def typeSelected (noDepsTypeDefined : Bool) (inclusions : Value) (tag : String) : Option Bool :=
  if noDepsTypeDefined then some true
  else
    match indexOf inclusions tag with
    | some i => some (decide (i > -1))
    | none => none

/-- The array index that a property key denotes: the key is a canonical numeric string, `0` or
decimal digits without a leading zero, of a number below `2^32 - 1`. -/
def arrayIndex (key : String) : Option Nat :=
  match key.data with
  | [] => none
  | c :: rest =>
    if (c :: rest).all semver.isDigit && (rest.isEmpty || c != '0') &&
        decide (semver.digitsValue (c :: rest) 0 < 4294967295) then
      some (semver.digitsValue (c :: rest) 0)
    else none

/-- Insert an entry with an array index into a list sorted by array index. -/
def insertByIndex (kv : String × String) : Packages → Packages
  | [] => [kv]
  | x :: xs =>
    if (arrayIndex kv.1).getD 0 ≤ (arrayIndex x.1).getD 0 then kv :: x :: xs
    else x :: insertByIndex kv xs

/-- Sort entries with array indices in ascending order of the index. -/
def sortByIndex : Packages → Packages
  | [] => []
  | kv :: rest => insertByIndex kv (sortByIndex rest)

/-- The order in which JavaScript enumerates the own properties of an object (`for ... in`,
`Object.keys`, `Object.entries`): first the keys that are array indices, in ascending numeric
order, then the other keys in insertion order. -/
def propertyOrder (packages : Packages) : Packages :=
  sortByIndex (packages.filter (fun kv => (arrayIndex kv.1).isSome)) ++
    packages.filter (fun kv => !(arrayIndex kv.1).isSome)

/-- The record built for the package `key` with version range `version`. -/
def newEntry (key version : String) : DependencyRecord :=
  { name := some key, fullName := key, version := version,
    installedVersion := none, isRootNode := none, path := none }

/-- The loop of `addPackagesToIndex` over the enumerated entries. -/
def addEntriesToIndex (enumerated : Packages) (depsIndex : List DependencyRecord)
    (exclusions : List String) : List DependencyRecord :=
  match enumerated with
  | [] => depsIndex
  | (key, version) :: rest =>
    if exclusions.contains key then addEntriesToIndex rest depsIndex exclusions
    else addEntriesToIndex rest (depsIndex ++ [newEntry key version]) exclusions

/-- Modelled from the spec: `addPackagesToIndex` is imported from the `license-report` package
and its source is not part of the repository. Spec 4.1: "For each consulted group, every package
name present is converted into one DependencyRecord unless its name appears in exclusions". The
package names are visited in the order in which JavaScript enumerates the mapping
(`propertyOrder`). The result is the new content of the array `depsIndex`, to which the
function appends. -/
def addPackagesToIndex (packages : Packages) (depsIndex : List DependencyRecord)
    (exclusions : List String) : List DependencyRecord :=
  addEntriesToIndex (propertyOrder packages) depsIndex exclusions

/-- The statement `depsIndex.forEach((element) => (element.path = ...))`. -/
def setPaths (depsIndex : List DependencyRecord) (parentPath : String) : List DependencyRecord :=
  depsIndex.map (fun element => { element with path := some (parentPath ++ ">" ++ element.fullName) })

/-- Function `getDependencies` of `lib/getDependencies.js`. The result is `none` when the call
throws. -/
def getDependencies (packageJson : PackageJson) (exclusions : List String) (inclusions : Value)
    (parentPath : String) : Option (List DependencyRecord) :=
  let depsIndex : List DependencyRecord := []
  let noDepsTypeDefined : Bool :=
    isNullOrUndefined inclusions || !isArray inclusions ||
      (match inclusions with
       | .array items => decide (items.length = 0)
       | _ => false)
  match typeSelected noDepsTypeDefined inclusions "prod" with
  | none => none
  | some prod =>
    let depsIndex :=
      if prod && packageJson.dependencies.isSome then
        match packageJson.dependencies with
        | some dependencies => addPackagesToIndex dependencies depsIndex exclusions
        | none => depsIndex
      else depsIndex
    match typeSelected noDepsTypeDefined inclusions "dev" with
    | none => none
    | some dev =>
      let depsIndex :=
        if dev && packageJson.devDependencies.isSome then
          match packageJson.devDependencies with
          | some devDependencies => addPackagesToIndex devDependencies depsIndex exclusions
          | none => depsIndex
        else depsIndex
      match typeSelected noDepsTypeDefined inclusions "peer" with
      | none => none
      | some peer =>
        let depsIndex :=
          if peer && packageJson.peerDependencies.isSome then
            match packageJson.peerDependencies with
            | some peerDependencies => addPackagesToIndex peerDependencies depsIndex exclusions
            | none => depsIndex
          else depsIndex
        match typeSelected noDepsTypeDefined inclusions "opt" with
        | none => none
        | some opt =>
          let depsIndex :=
            if opt && packageJson.optionalDependencies.isSome then
              match packageJson.optionalDependencies with
              | some optionalDependencies =>
                addPackagesToIndex optionalDependencies depsIndex exclusions
              | none => depsIndex
            else depsIndex
          some (setPaths depsIndex parentPath)

/-! ## Definitions used in the statements -/

/-- A three-way comparator with values `-1`, `0`, `1` that is antisymmetric and transitive. -/
structure IsCmp {α : Type} (f : α → α → Int) : Prop where
  range : ∀ x y, f x y = -1 ∨ f x y = 0 ∨ f x y = 1
  symm : ∀ x y, f y x = -f x y
  le_trans : ∀ x y z, f x y ≤ 0 → f y z ≤ 0 → f x z ≤ 0

/-- The comparator that asks `f` first and `g` when `f` answers `0`. -/
def lexCmp {α : Type} (f g : α → α → Int) (x y : α) : Int :=
  if f x y ≠ 0 then f x y else g x y

/-- The three-way comparison induced by `ltUnits`. -/
def cmpUnits (a b : List Nat) : Int :=
  if ltUnits a b then -1 else if ltUnits b a then 1 else 0

/-- Comparison of two root flags: `true` comes first. -/
def cmpRoot (x y : Bool) : Int :=
  if x && !y then -1 else if !x && y then 1 else 0

/-- The order of `alphaSort` on records that both carry a valid version. -/
def cmpWithVersion : List Nat × SemVer × Bool → List Nat × SemVer × Bool → Int :=
  lexCmp (fun x y => cmpUnits x.1 y.1)
    (lexCmp (fun x y => semver.compare x.2.1 y.2.1) (fun x y => cmpRoot x.2.2 y.2.2))

/-- The order of `alphaSort` on records of which one carries no valid version. -/
def cmpNoVersion : List Nat × Bool → List Nat × Bool → Int :=
  lexCmp (fun x y => cmpUnits x.1 y.1) (fun x y => cmpRoot x.2 y.2)

/-- The records built from a list of entries: one for each entry that is not excluded, in the
order of the list. -/
def recordsOf (enumerated : Packages) (exclusions : List String) : List DependencyRecord :=
  (enumerated.filter (fun kv => !exclusions.contains kv.1)).map (fun kv => newEntry kv.1 kv.2)

/-- The records `addPackagesToIndex` creates for one group: one for each entry that is not
excluded, in the order in which the entries are enumerated. -/
def entries (packages : Packages) (exclusions : List String) : List DependencyRecord :=
  recordsOf (propertyOrder packages) exclusions

/-- The condition "`inclusions` is not a non-empty array". -/
def unrestricted (inclusions : Value) : Bool :=
  match inclusions with
  | .array (_ :: _) => false
  | _ => true

/-- The condition "`inclusions` is an array that has `tag` as an element". -/
def hasTag (inclusions : Value) (tag : String) : Bool :=
  match inclusions with
  | .array items => items.contains tag
  | _ => false

/-- What one group contributes: the records of its entries when it is defined. -/
def contribution (group : Option Packages) (exclusions : List String) : List DependencyRecord :=
  match group with
  | some packages => entries packages exclusions
  | none => []

/-- The records of the groups that `consults` selects, in the order production, development,
peer, optional. -/
def selectGroups (consults : Value → String → Option Packages → Bool) (packageJson : PackageJson)
    (exclusions : List String) (inclusions : Value) : List DependencyRecord :=
  (if consults inclusions "prod" packageJson.dependencies
    then contribution packageJson.dependencies exclusions else []) ++
  (if consults inclusions "dev" packageJson.devDependencies
    then contribution packageJson.devDependencies exclusions else []) ++
  (if consults inclusions "peer" packageJson.peerDependencies
    then contribution packageJson.peerDependencies exclusions else []) ++
  (if consults inclusions "opt" packageJson.optionalDependencies
    then contribution packageJson.optionalDependencies exclusions else [])

/-- A group is consulted when `inclusions` is not a non-empty array or contains the tag of the
group, and the manifest defines the group. -/
def consulted (inclusions : Value) (tag : String) (group : Option Packages) : Bool :=
  (unrestricted inclusions || hasTag inclusions tag) && group.isSome

/-- The selection rule with the condition on `inclusions` read as "`null`, `undefined` or an
empty array, or an array that contains the tag". -/
def consultedNullOrEmpty (inclusions : Value) (tag : String) (group : Option Packages) : Bool :=
  (decide (inclusions = Value.null) || decide (inclusions = Value.undefined) ||
    decide (inclusions = Value.array []) || hasTag inclusions tag) && group.isSome

/-- The entries of a group in the order in which they are enumerated; none when the group is
absent. -/
def groupEntries (group : Option Packages) : Packages := propertyOrder (group.getD [])

/-- The number of entries of a group. -/
def groupSize (group : Option Packages) : Nat := (group.getD []).length

/-- The number of entries of a group whose package name is excluded. -/
def excludedCount (group : Option Packages) (exclusions : List String) : Nat :=
  ((group.getD []).filter (fun kv => exclusions.contains kv.1)).length

/-- The entries of the four groups in the order production, development, peer, optional, each
group in the order in which it is enumerated. -/
def allEntries (packageJson : PackageJson) : Packages :=
  groupEntries packageJson.dependencies ++ groupEntries packageJson.devDependencies ++
    groupEntries packageJson.peerDependencies ++ groupEntries packageJson.optionalDependencies

/-- The built-in `String.prototype.toLowerCase` on strings of ASCII characters, where it maps
`A`-`Z` to `a`-`z` and keeps every other character. The examples below, whose names are ASCII
strings, evaluate `alphaSort` with it. -/
def asciiLowerCase (s : String) : String := ⟨s.data.map Char.toLower⟩

/-- A package data object as the report sorts it. -/
def packageData (name : String) (installedVersion : Option String) (isRootNode : Option Bool) :
    DependencyRecord :=
  { name := some name, fullName := name, version := "", installedVersion := installedVersion,
    isRootNode := isRootNode, path := none }

/-- The manifest `{dependencies: {a: "^1.0.0"}, devDependencies: {b: "^2.0.0"}}`. -/
def manifestAB : PackageJson :=
  { dependencies := some [("a", "^1.0.0")], devDependencies := some [("b", "^2.0.0")],
    peerDependencies := none, optionalDependencies := none }

/-- A manifest in which `a` occurs in two groups:
`{dependencies: {a: "^1.0.0", b: "^2.0.0"}, devDependencies: {a: "^1.2.0", c: "^3.0.0"}}`. -/
def manifestShared : PackageJson :=
  { dependencies := some [("a", "^1.0.0"), ("b", "^2.0.0")],
    devDependencies := some [("a", "^1.2.0"), ("c", "^3.0.0")],
    peerDependencies := none, optionalDependencies := none }

/-- The manifest `{dependencies: {lodash: "^4.17.21"}}`. -/
def manifestLodash : PackageJson :=
  { dependencies := some [("lodash", "^4.17.21")], devDependencies := none,
    peerDependencies := none, optionalDependencies := none }

/-- The manifest `{dependencies: {b: "^1.0.0", "10": "^1.0.0", "2": "^1.0.0"}}`, the entries
written in this order. -/
def manifestNumeric : PackageJson :=
  { dependencies := some [("b", "^1.0.0"), ("10", "^1.0.0"), ("2", "^1.0.0")],
    devDependencies := none, peerDependencies := none, optionalDependencies := none }

/-! ## Lemmas -/

theorem IsCmp.eq_trans {α : Type} {f : α → α → Int} (h : IsCmp f) {x y z : α}
    (h1 : f x y = 0) (h2 : f y z = 0) : f x z = 0 := by
  have a1 := h.le_trans x y z (by omega) (by omega)
  have a2 := h.le_trans z y x (by have := h.symm y z; omega) (by have := h.symm x y; omega)
  have := h.symm x z
  omega

theorem IsCmp.lt_of_lt_of_le {α : Type} {f : α → α → Int} (h : IsCmp f) {x y z : α}
    (h1 : f x y < 0) (h2 : f y z ≤ 0) : f x z < 0 := by
  have a1 := h.le_trans x y z (by omega) h2
  by_contra hc
  have hxz : f x z = 0 := by omega
  have a2 := h.le_trans y z x h2 (by have := h.symm x z; omega)
  have := h.symm x y
  omega

theorem IsCmp.lt_of_le_of_lt {α : Type} {f : α → α → Int} (h : IsCmp f) {x y z : α}
    (h1 : f x y ≤ 0) (h2 : f y z < 0) : f x z < 0 := by
  have a1 := h.le_trans x y z h1 (by omega)
  by_contra hc
  have hxz : f x z = 0 := by omega
  have a2 := h.le_trans z x y (by have := h.symm x z; omega) h1
  have := h.symm y z
  omega

theorem IsCmp.lex {α : Type} {f g : α → α → Int} (hf : IsCmp f) (hg : IsCmp g) :
    IsCmp (lexCmp f g) := by
  refine ⟨?_, ?_, ?_⟩
  · intro x y
    unfold lexCmp
    split
    · exact hf.range x y
    · exact hg.range x y
  · intro x y
    unfold lexCmp
    have := hf.symm x y
    have := hg.symm x y
    split <;> split <;> omega
  · intro x y z h1 h2
    unfold lexCmp at *
    have rxy := hf.range x y
    have ryz := hf.range y z
    by_cases c1 : f x y = 0
    · by_cases c2 : f y z = 0
      · have c3 := hf.eq_trans c1 c2
        simp only [c1, c2, c3, ne_eq, not_true_eq_false, ite_false] at *
        exact hg.le_trans x y z h1 h2
      · simp only [c1, c2, ne_eq, not_true_eq_false, not_false_eq_true, ite_true, ite_false] at h1 h2
        have := hf.lt_of_le_of_lt (x := x) (y := y) (z := z) (by omega) (by omega)
        split <;> omega
    · simp only [c1, ne_eq, not_false_eq_true, ite_true] at h1
      by_cases c2 : f y z = 0
      · have := hf.lt_of_lt_of_le (x := x) (y := y) (z := z) (by omega) (by omega)
        split <;> omega
      · simp only [c2, ne_eq, not_false_eq_true, ite_true] at h2
        have := hf.lt_of_lt_of_le (x := x) (y := y) (z := z) (by omega) (by omega)
        split <;> omega

theorem IsCmp.comap {α β : Type} {f : β → β → Int} (hf : IsCmp f) (k : α → β) :
    IsCmp (fun x y => f (k x) (k y)) :=
  ⟨fun _ _ => hf.range _ _, fun _ _ => hf.symm _ _, fun _ _ _ => hf.le_trans _ _ _⟩

theorem ltUnits_irrefl (a : List Nat) : ltUnits a a = false := by
  induction a with
  | nil => rfl
  | cons x xs ih => simp [ltUnits, ih]

theorem ltUnits_asymm : ∀ (a b : List Nat), ltUnits a b = true → ltUnits b a = false
  | [], [], h => by simp [ltUnits] at h
  | [], _ :: _, _ => by simp [ltUnits]
  | _ :: _, [], h => by simp [ltUnits] at h
  | x :: xs, y :: ys, h => by
    simp only [ltUnits] at h ⊢
    by_cases c1 : x < y
    · have : ¬ y < x := by omega
      simp [this, c1]
    · by_cases c2 : y < x
      · simp [c1, c2] at h
      · simp only [c1, c2, ite_false] at h ⊢
        have : ¬ x < y := c1
        exact ltUnits_asymm xs ys h

theorem ltUnits_trans : ∀ (a b c : List Nat), ltUnits a b = true → ltUnits b c = true →
    ltUnits a c = true
  | [], [], _, h, _ => by simp [ltUnits] at h
  | [], _ :: _, [], _, h => by simp [ltUnits] at h
  | [], _ :: _, _ :: _, _, _ => by simp [ltUnits]
  | _ :: _, [], _, h, _ => by simp [ltUnits] at h
  | _ :: _, _ :: _, [], _, h => by simp [ltUnits] at h
  | x :: xs, y :: ys, z :: zs, h1, h2 => by
    simp only [ltUnits] at h1 h2 ⊢
    by_cases c1 : x < y
    · by_cases c2 : y < z
      · have : x < z := by omega
        simp [this]
      · by_cases c3 : z < y
        · simp [c2, c3] at h2
        · have : x < z := by omega
          simp [this]
    · by_cases c1' : y < x
      · simp [c1, c1'] at h1
      · simp only [c1, c1', ite_false] at h1
        by_cases c2 : y < z
        · have : x < z := by omega
          simp [this]
        · by_cases c3 : z < y
          · simp [c2, c3] at h2
          · simp only [c2, c3, ite_false] at h2
            have e1 : ¬ x < z := by omega
            have e2 : ¬ z < x := by omega
            simp only [e1, e2, ite_false]
            exact ltUnits_trans xs ys zs h1 h2

theorem ltUnits_eq_of_not_lt : ∀ (a b : List Nat), ltUnits a b = false → ltUnits b a = false →
    a = b
  | [], [], _, _ => rfl
  | [], _ :: _, h, _ => by simp [ltUnits] at h
  | _ :: _, [], _, h => by simp [ltUnits] at h
  | x :: xs, y :: ys, h1, h2 => by
    simp only [ltUnits] at h1 h2
    by_cases c1 : x < y
    · simp [c1] at h1
    · by_cases c2 : y < x
      · simp [c2] at h2
      · simp only [c1, c2, ite_false] at h1 h2
        have : x = y := by omega
        rw [this, ltUnits_eq_of_not_lt xs ys h1 h2]

theorem isCmp_cmpUnits : IsCmp cmpUnits := by
  refine ⟨?_, ?_, ?_⟩
  · intro x y
    unfold cmpUnits
    split
    · exact Or.inl rfl
    · split
      · exact Or.inr (Or.inr rfl)
      · exact Or.inr (Or.inl rfl)
  · intro x y
    unfold cmpUnits
    by_cases c1 : ltUnits x y = true
    · have := ltUnits_asymm x y c1
      simp [c1, this]
    · by_cases c2 : ltUnits y x = true
      · simp [c1, c2]
      · simp [c1, c2]
  · intro x y z h1 h2
    unfold cmpUnits at *
    by_cases c1 : ltUnits x y = true
    · by_cases c2 : ltUnits y z = true
      · simp [ltUnits_trans x y z c1 c2]
      · by_cases c3 : ltUnits z y = true
        · simp [c2, c3] at h2
        · have e := ltUnits_eq_of_not_lt y z (by simpa using c2) (by simpa using c3)
          subst e
          simp [c1]
    · by_cases c1' : ltUnits y x = true
      · simp [c1, c1'] at h1
      · have e := ltUnits_eq_of_not_lt x y (by simpa using c1) (by simpa using c1')
        subst e
        exact h2

theorem isCmp_compareNat : IsCmp semver.compareNat := by
  refine ⟨?_, ?_, ?_⟩
  · intro x y
    unfold semver.compareNat
    split
    · exact Or.inr (Or.inl rfl)
    · split
      · exact Or.inl rfl
      · exact Or.inr (Or.inr rfl)
  · intro x y
    unfold semver.compareNat
    split <;> split <;> (try split) <;> (try split) <;> omega
  · intro x y z
    unfold semver.compareNat
    split <;> split <;> (try split) <;> (try split) <;> (try split) <;> (try split) <;> omega

theorem isCmp_compareIdentifiers : IsCmp semver.compareIdentifiers := by
  have hu := isCmp_cmpUnits
  have hn := isCmp_compareNat
  have key : ∀ a b : List Char, semver.compareIdentifiers (.str a) (.str b)
      = cmpUnits (a.map Char.toNat) (b.map Char.toNat) := fun _ _ => rfl
  refine ⟨?_, ?_, ?_⟩
  · intro x y
    cases x <;> cases y
    · exact hn.range _ _
    · exact Or.inl rfl
    · exact Or.inr (Or.inr rfl)
    · rw [key]; exact hu.range _ _
  · intro x y
    cases x <;> cases y
    · exact hn.symm _ _
    · rfl
    · rfl
    · rw [key, key]; exact hu.symm _ _
  · intro x y z
    cases x <;> cases y <;> cases z <;>
      simp only [semver.compareIdentifiers, key] <;> first
      | exact hn.le_trans _ _ _
      | exact hu.le_trans _ _ _
      | omega

theorem compareIds_range : ∀ x y : List Identifier,
    semver.compareIds x y = -1 ∨ semver.compareIds x y = 0 ∨ semver.compareIds x y = 1
  | [], [] => Or.inr (Or.inl rfl)
  | [], _ :: _ => Or.inl rfl
  | _ :: _, [] => Or.inr (Or.inr rfl)
  | a :: as, b :: bs => by
    unfold semver.compareIds
    split
    · exact isCmp_compareIdentifiers.range a b
    · exact compareIds_range as bs

theorem compareIds_symm : ∀ x y : List Identifier,
    semver.compareIds y x = -semver.compareIds x y
  | [], [] => rfl
  | [], _ :: _ => rfl
  | _ :: _, [] => rfl
  | a :: as, b :: bs => by
    unfold semver.compareIds
    have h := isCmp_compareIdentifiers.symm a b
    have ih := compareIds_symm as bs
    split <;> split <;> omega

theorem compareIds_le_trans : ∀ x y z : List Identifier,
    semver.compareIds x y ≤ 0 → semver.compareIds y z ≤ 0 → semver.compareIds x z ≤ 0
  | [], _, [] => fun _ _ => by simp [semver.compareIds]
  | [], _, _ :: _ => fun _ _ => by simp [semver.compareIds]
  | _ :: _, [], _ => fun h _ => by simp [semver.compareIds] at h
  | _ :: _, _ :: _, [] => fun _ h => by simp [semver.compareIds] at h
  | a :: as, b :: bs, c :: cs => by
    intro h1 h2
    have hc := isCmp_compareIdentifiers
    unfold semver.compareIds at h1 h2 ⊢
    have ih := compareIds_le_trans as bs cs
    by_cases c1 : semver.compareIdentifiers a b = 0
    · by_cases c2 : semver.compareIdentifiers b c = 0
      · have c3 := hc.eq_trans c1 c2
        simp only [c1, c2, c3, ne_eq, not_true_eq_false, ite_false] at h1 h2 ⊢
        exact ih h1 h2
      · simp only [c1, c2, ne_eq, not_true_eq_false, not_false_eq_true, ite_true, ite_false]
          at h1 h2
        have := hc.lt_of_le_of_lt (x := a) (y := b) (z := c) (by omega) (by omega)
        split <;> omega
    · simp only [c1, ne_eq, not_false_eq_true, ite_true] at h1
      by_cases c2 : semver.compareIdentifiers b c = 0
      · have := hc.lt_of_lt_of_le (x := a) (y := b) (z := c) (by omega) (by omega)
        split <;> omega
      · simp only [c2, ne_eq, not_false_eq_true, ite_true] at h2
        have := hc.lt_of_lt_of_le (x := a) (y := b) (z := c) (by omega) (by omega)
        split <;> omega

theorem isCmp_compareIds : IsCmp semver.compareIds :=
  ⟨compareIds_range, compareIds_symm, compareIds_le_trans⟩

/-- The pre-release comparison on the lists themselves. -/
theorem comparePre_eq (a b : SemVer) : semver.comparePre a b =
    (match a.prerelease, b.prerelease with
     | [], [] => 0
     | _ :: _, [] => -1
     | [], _ :: _ => 1
     | x :: xs, y :: ys => semver.compareIds (x :: xs) (y :: ys)) := rfl

theorem isCmp_comparePre : IsCmp semver.comparePre := by
  have hc := isCmp_compareIds
  refine ⟨?_, ?_, ?_⟩
  · intro x y
    rw [comparePre_eq]
    split
    · exact Or.inr (Or.inl rfl)
    · exact Or.inl rfl
    · exact Or.inr (Or.inr rfl)
    · exact hc.range _ _
  · intro x y
    rw [comparePre_eq, comparePre_eq]
    rcases hx : x.prerelease with _ | ⟨a, as⟩ <;> rcases hy : y.prerelease with _ | ⟨b, bs⟩
    · rfl
    · rfl
    · rfl
    · exact hc.symm _ _
  · intro x y z
    rw [comparePre_eq, comparePre_eq, comparePre_eq]
    rcases hx : x.prerelease with _ | ⟨a, as⟩ <;> rcases hy : y.prerelease with _ | ⟨b, bs⟩ <;>
      rcases hz : z.prerelease with _ | ⟨c, cs⟩ <;> simp only [] <;> first
      | exact hc.le_trans _ _ _
      | omega

theorem isCmp_compareMain : IsCmp semver.compareMain :=
  IsCmp.lex (isCmp_compareNat.comap SemVer.major)
    (IsCmp.lex (isCmp_compareNat.comap SemVer.minor) (isCmp_compareNat.comap SemVer.patch))

theorem isCmp_compare : IsCmp semver.compare :=
  IsCmp.lex isCmp_compareMain isCmp_comparePre

theorem isCmp_cmpRoot : IsCmp cmpRoot := by
  refine ⟨?_, ?_, ?_⟩
  · intro x y; cases x <;> cases y <;> simp [cmpRoot]
  · intro x y; cases x <;> cases y <;> simp [cmpRoot]
  · intro x y z; cases x <;> cases y <;> cases z <;> simp [cmpRoot]

theorem rootTier_eq (a b : DependencyRecord) : rootTier a b = cmpRoot (isRoot a) (isRoot b) := rfl

theorem isCmp_cmpWithVersion : IsCmp cmpWithVersion :=
  IsCmp.lex (isCmp_cmpUnits.comap _) (IsCmp.lex (isCmp_compare.comap _) (isCmp_cmpRoot.comap _))

theorem isCmp_cmpNoVersion : IsCmp cmpNoVersion :=
  IsCmp.lex (isCmp_cmpUnits.comap _) (isCmp_cmpRoot.comap _)

theorem valid_eq_true_iff (v : Option String) :
    semver.valid v = true ↔ ∃ s x, v = some s ∧ semver.parse s = some x := by
  cases v with
  | none => simp [semver.valid]
  | some s =>
    simp only [semver.valid, Option.some.injEq, exists_and_left, exists_eq_left']
    exact Option.isSome_iff_exists

theorem alphaSort_of_valid {toLowerCase : String → String} {a b : DependencyRecord}
    {na nb sa sb : String} {va vb : SemVer}
    (ha : a.name = some na) (hb : b.name = some nb)
    (hsa : a.installedVersion = some sa) (hsb : b.installedVersion = some sb)
    (hva : semver.parse sa = some va) (hvb : semver.parse sb = some vb) :
    alphaSort toLowerCase a b = some (cmpWithVersion (codeUnits (toLowerCase na), va, isRoot a)
      (codeUnits (toLowerCase nb), vb, isRoot b)) := by
  have hr := isCmp_compare.range va vb
  simp only [alphaSort, ha, hb, hsa, hsb, semver.valid, semver.lt, semver.gt, hva, hvb, strLt,
    cmpWithVersion, lexCmp, cmpUnits, rootTier_eq, Option.isSome_some, Bool.and_self, ite_true]
  by_cases c1 : ltUnits (codeUnits (toLowerCase na)) (codeUnits (toLowerCase nb)) = true
  · simp [c1]
  · by_cases c2 : ltUnits (codeUnits (toLowerCase nb)) (codeUnits (toLowerCase na)) = true
    · simp [c1, c2]
    · simp only [c1, c2, ite_false, Bool.false_eq_true]
      rcases hr with h | h | h <;> simp [h]

theorem alphaSort_of_not_valid {toLowerCase : String → String} {a b : DependencyRecord}
    {na nb : String}
    (ha : a.name = some na) (hb : b.name = some nb)
    (hv : (semver.valid a.installedVersion && semver.valid b.installedVersion) = false) :
    alphaSort toLowerCase a b = some (cmpNoVersion (codeUnits (toLowerCase na), isRoot a)
      (codeUnits (toLowerCase nb), isRoot b)) := by
  simp only [alphaSort, ha, hb, hv, strLt, cmpNoVersion, lexCmp, cmpUnits, rootTier_eq]
  by_cases c1 : ltUnits (codeUnits (toLowerCase na)) (codeUnits (toLowerCase nb)) = true
  · simp [c1]
  · by_cases c2 : ltUnits (codeUnits (toLowerCase nb)) (codeUnits (toLowerCase na)) = true
    · simp [c1, c2]
    · simp [c1, c2]

theorem name_of_alphaSort {toLowerCase : String → String} {a b : DependencyRecord} {r : Int}
    (h : alphaSort toLowerCase a b = some r) :
    (∃ na, a.name = some na) ∧ ∃ nb, b.name = some nb := by
  unfold alphaSort at h
  split at h
  · next na nb ha hb => exact ⟨⟨na, ha⟩, ⟨nb, hb⟩⟩
  · exact absurd h (by simp)

theorem alphaSort_le_trans_noVersion {toLowerCase : String → String} {a b c : DependencyRecord}
    {na nb nc : String}
    {r₁ r₂ : Int} (ha : a.name = some na) (hb : b.name = some nb) (hc : c.name = some nc)
    (hab : (semver.valid a.installedVersion && semver.valid b.installedVersion) = false)
    (hbc : (semver.valid b.installedVersion && semver.valid c.installedVersion) = false)
    (hac : (semver.valid a.installedVersion && semver.valid c.installedVersion) = false)
    (h₁ : alphaSort toLowerCase a b = some r₁) (hr₁ : r₁ ≤ 0)
    (h₂ : alphaSort toLowerCase b c = some r₂) (hr₂ : r₂ ≤ 0) :
    ∃ r₃, alphaSort toLowerCase a c = some r₃ ∧ r₃ ≤ 0 := by
  rw [alphaSort_of_not_valid ha hb hab] at h₁
  rw [alphaSort_of_not_valid hb hc hbc] at h₂
  rw [alphaSort_of_not_valid ha hc hac]
  refine ⟨_, rfl, ?_⟩
  cases h₁; cases h₂
  exact isCmp_cmpNoVersion.le_trans _ _ _ hr₁ hr₂

theorem alphaSort_le_trans_withVersion {toLowerCase : String → String} {a b c : DependencyRecord}
    {na nb nc : String}
    {r₁ r₂ : Int} (ha : a.name = some na) (hb : b.name = some nb) (hc : c.name = some nc)
    (hA : semver.valid a.installedVersion = true) (hB : semver.valid b.installedVersion = true)
    (hC : semver.valid c.installedVersion = true)
    (h₁ : alphaSort toLowerCase a b = some r₁) (hr₁ : r₁ ≤ 0)
    (h₂ : alphaSort toLowerCase b c = some r₂) (hr₂ : r₂ ≤ 0) :
    ∃ r₃, alphaSort toLowerCase a c = some r₃ ∧ r₃ ≤ 0 := by
  obtain ⟨sa, va, hsa, hva⟩ := (valid_eq_true_iff _).1 hA
  obtain ⟨sb, vb, hsb, hvb⟩ := (valid_eq_true_iff _).1 hB
  obtain ⟨sc, vc, hsc, hvc⟩ := (valid_eq_true_iff _).1 hC
  rw [alphaSort_of_valid ha hb hsa hsb hva hvb] at h₁
  rw [alphaSort_of_valid hb hc hsb hsc hvb hvc] at h₂
  rw [alphaSort_of_valid ha hc hsa hsc hva hvc]
  refine ⟨_, rfl, ?_⟩
  cases h₁; cases h₂
  exact isCmp_cmpWithVersion.le_trans _ _ _ hr₁ hr₂

theorem strLt_irrefl (a : String) : strLt a a = false := ltUnits_irrefl _

theorem strLt_asymm {a b : String} (h : strLt a b = true) : strLt b a = false :=
  ltUnits_asymm _ _ h

theorem IsCmp.refl {α : Type} {f : α → α → Int} (h : IsCmp f) (x : α) : f x x = 0 := by
  have := h.symm x x
  omega

theorem lexCmp_eq_zero_iff {α : Type} (f g : α → α → Int) (x y : α) :
    lexCmp f g x y = 0 ↔ f x y = 0 ∧ g x y = 0 := by
  unfold lexCmp
  by_cases h : f x y = 0
  · simp [h]
  · simp [h]

theorem cmpUnits_eq_zero_iff (x y : List Nat) : cmpUnits x y = 0 ↔ x = y := by
  constructor
  · intro h
    unfold cmpUnits at h
    by_cases c1 : ltUnits x y = true
    · simp [c1] at h
    · by_cases c2 : ltUnits y x = true
      · simp [c1, c2] at h
      · exact ltUnits_eq_of_not_lt x y (by simpa using c1) (by simpa using c2)
  · intro h
    subst h
    exact isCmp_cmpUnits.refl x

theorem cmpRoot_eq_zero_iff (x y : Bool) : cmpRoot x y = 0 ↔ x = y := by
  cases x <;> cases y <;> simp [cmpRoot]

theorem char_valid_toNat (c : Char) :
    c.toNat < 0xD800 ∨ (0xDFFF < c.toNat ∧ c.toNat < 0x110000) := c.valid

theorem char_eq_of_toNat_eq {c d : Char} (h : c.toNat = d.toNat) : c = d := by
  rw [← Char.ofNat_toNat c, ← Char.ofNat_toNat d, h]

theorem unitsOfChars_injective : ∀ (cs ds : List Char), unitsOfChars cs = unitsOfChars ds →
    cs = ds
  | [], [] => fun _ => rfl
  | [], d :: ds => by
    intro h
    simp only [unitsOfChars, charUnits] at h
    split at h <;> simp at h
  | c :: cs, [] => by
    intro h
    simp only [unitsOfChars, charUnits] at h
    split at h <;> simp at h
  | c :: cs, d :: ds => by
    intro h
    have hc := char_valid_toNat c
    have hd := char_valid_toNat d
    simp only [unitsOfChars, charUnits] at h
    by_cases c1 : c.toNat < 0x10000
    · by_cases d1 : d.toNat < 0x10000
      · simp only [c1, d1, ite_true, List.singleton_append, List.cons.injEq] at h
        rw [char_eq_of_toNat_eq h.1, unitsOfChars_injective cs ds h.2]
      · simp only [c1, d1, ite_true, ite_false, List.singleton_append, List.cons_append,
          List.nil_append, List.cons.injEq] at h
        omega
    · by_cases d1 : d.toNat < 0x10000
      · simp only [c1, d1, ite_true, ite_false, List.singleton_append, List.cons_append,
          List.nil_append, List.cons.injEq] at h
        omega
      · simp only [c1, d1, ite_false, List.cons_append, List.nil_append, List.cons.injEq] at h
        obtain ⟨h1, h2, h3⟩ := h
        have e : c.toNat = d.toNat := by omega
        rw [char_eq_of_toNat_eq e, unitsOfChars_injective cs ds h3]

theorem codeUnits_injective {a b : String} (h : codeUnits a = codeUnits b) : a = b := by
  have := unitsOfChars_injective a.data b.data h
  exact String.ext this

theorem alphaSort_of_same_version {toLowerCase : String → String} {a b : DependencyRecord}
    {na nb : String}
    (ha : a.name = some na) (hb : b.name = some nb) (hn : toLowerCase na = toLowerCase nb)
    (hv : a.installedVersion = b.installedVersion) :
    alphaSort toLowerCase a b = some (rootTier a b) := by
  have hu : cmpUnits (codeUnits (toLowerCase nb)) (codeUnits (toLowerCase nb)) = 0 :=
    isCmp_cmpUnits.refl _
  by_cases h : semver.valid b.installedVersion = true
  · obtain ⟨sb, vb, hsb, hvb⟩ := (valid_eq_true_iff _).1 h
    have hc : semver.compare vb vb = 0 := isCmp_compare.refl vb
    rw [alphaSort_of_valid ha hb (hv.trans hsb) hsb hvb hvb, hn]
    simp [cmpWithVersion, lexCmp, hu, hc, rootTier_eq]
  · rw [alphaSort_of_not_valid ha hb (by simp [h]), hn]
    simp [cmpNoVersion, lexCmp, hu, rootTier_eq]

theorem alphaSort_of_names_eq_of_not_valid {toLowerCase : String → String} {a b : DependencyRecord}
    {na nb : String}
    (ha : a.name = some na) (hb : b.name = some nb) (hn : toLowerCase na = toLowerCase nb)
    (hv : (semver.valid a.installedVersion && semver.valid b.installedVersion) = false) :
    alphaSort toLowerCase a b = some (rootTier a b) := by
  have hu : cmpUnits (codeUnits (toLowerCase nb)) (codeUnits (toLowerCase nb)) = 0 :=
    isCmp_cmpUnits.refl _
  rw [alphaSort_of_not_valid ha hb hv, hn]
  simp [cmpNoVersion, lexCmp, hu, rootTier_eq]

theorem alphaSort_of_name_ne {toLowerCase : String → String} {a b : DependencyRecord}
    {na nb : String} (ha : a.name = some na) (hb : b.name = some nb)
    (h : cmpUnits (codeUnits (toLowerCase na)) (codeUnits (toLowerCase nb)) ≠ 0) :
    alphaSort toLowerCase a b
      = some (cmpUnits (codeUnits (toLowerCase na)) (codeUnits (toLowerCase nb))) := by
  unfold cmpUnits at h ⊢
  simp only [alphaSort, ha, hb, strLt]
  by_cases c1 : ltUnits (codeUnits (toLowerCase na)) (codeUnits (toLowerCase nb)) = true
  · simp [c1]
  · by_cases c2 : ltUnits (codeUnits (toLowerCase nb)) (codeUnits (toLowerCase na)) = true
    · simp [c1, c2]
    · simp [c1, c2] at h

theorem name_le_of_alphaSort_le {toLowerCase : String → String} {a b : DependencyRecord}
    {na nb : String} {r : Int} (ha : a.name = some na) (hb : b.name = some nb)
    (h : alphaSort toLowerCase a b = some r) (hr : r ≤ 0) :
    cmpUnits (codeUnits (toLowerCase na)) (codeUnits (toLowerCase nb)) ≤ 0 := by
  by_contra hc
  have hne : cmpUnits (codeUnits (toLowerCase na)) (codeUnits (toLowerCase nb)) ≠ 0 := by omega
  rw [alphaSort_of_name_ne ha hb hne] at h
  cases h
  exact hc hr

theorem cmpUnits_codeUnits_eq_zero_iff (s t : String) :
    cmpUnits (codeUnits s) (codeUnits t) = 0 ↔ s = t := by
  rw [cmpUnits_eq_zero_iff]
  exact ⟨codeUnits_injective, fun h => by rw [h]⟩

theorem alphaSort_le_trans_of_names {toLowerCase : String → String} {a b c : DependencyRecord}
    {na nb nc : String} {r₁ r₂ : Int}
    (ha : a.name = some na) (hb : b.name = some nb) (hc : c.name = some nc)
    (hn : ¬ (toLowerCase na = toLowerCase nb ∧ toLowerCase nb = toLowerCase nc))
    (h₁ : alphaSort toLowerCase a b = some r₁) (hr₁ : r₁ ≤ 0)
    (h₂ : alphaSort toLowerCase b c = some r₂) (hr₂ : r₂ ≤ 0) :
    ∃ r₃, alphaSort toLowerCase a c = some r₃ ∧ r₃ ≤ 0 := by
  have hu := isCmp_cmpUnits
  have n1 := name_le_of_alphaSort_le ha hb h₁ hr₁
  have n2 := name_le_of_alphaSort_le hb hc h₂ hr₂
  have hlt : cmpUnits (codeUnits (toLowerCase na)) (codeUnits (toLowerCase nc)) < 0 := by
    by_cases e1 : cmpUnits (codeUnits (toLowerCase na)) (codeUnits (toLowerCase nb)) = 0
    · by_cases e2 : cmpUnits (codeUnits (toLowerCase nb)) (codeUnits (toLowerCase nc)) = 0
      · exact absurd ⟨(cmpUnits_codeUnits_eq_zero_iff _ _).1 e1,
          (cmpUnits_codeUnits_eq_zero_iff _ _).1 e2⟩ hn
      · exact hu.lt_of_le_of_lt n1 (by omega)
    · exact hu.lt_of_lt_of_le (by omega) n2
  rw [alphaSort_of_name_ne ha hc (by omega)]
  exact ⟨_, rfl, by omega⟩

theorem insertByIndex_perm (kv : String × String) (l : Packages) :
    (insertByIndex kv l).Perm (kv :: l) := by
  induction l with
  | nil => exact List.Perm.refl _
  | cons x xs ih =>
    unfold insertByIndex
    split
    · exact List.Perm.refl _
    · exact (List.Perm.cons x ih).trans (List.Perm.swap kv x xs)

theorem sortByIndex_perm (l : Packages) : (sortByIndex l).Perm l := by
  induction l with
  | nil => exact List.Perm.refl _
  | cons kv rest ih =>
    unfold sortByIndex
    exact (insertByIndex_perm kv _).trans (List.Perm.cons kv ih)

theorem propertyOrder_perm (packages : Packages) : (propertyOrder packages).Perm packages := by
  unfold propertyOrder
  exact (List.Perm.append_right _ (sortByIndex_perm _)).trans (List.filter_append_perm _ _)

theorem propertyOrder_nil : propertyOrder [] = [] := rfl

theorem propertyOrder_of_no_index (packages : Packages)
    (h : ∀ kv ∈ packages, arrayIndex kv.1 = none) : propertyOrder packages = packages := by
  have h1 : packages.filter (fun kv => (arrayIndex kv.1).isSome) = [] := by
    rw [List.filter_eq_nil_iff]
    intro kv hkv
    simp [h kv hkv]
  have h2 : packages.filter (fun kv => !(arrayIndex kv.1).isSome) = packages := by
    rw [List.filter_eq_self]
    intro kv hkv
    simp [h kv hkv]
  unfold propertyOrder
  rw [h1, h2]
  rfl

theorem addEntriesToIndex_eq (enumerated : Packages) (depsIndex : List DependencyRecord)
    (exclusions : List String) :
    addEntriesToIndex enumerated depsIndex exclusions
      = depsIndex ++ recordsOf enumerated exclusions := by
  induction enumerated generalizing depsIndex with
  | nil => simp [addEntriesToIndex, recordsOf]
  | cons kv rest ih =>
    obtain ⟨key, version⟩ := kv
    unfold addEntriesToIndex
    by_cases h : exclusions.contains key = true
    · simp only [h, ite_true, ih]
      have h' : key ∈ exclusions := by simpa using h
      simp [recordsOf, List.filter_cons, h']
    · simp only [h, ih]
      have h' : key ∉ exclusions := by simpa using h
      simp [recordsOf, List.filter_cons, h']

theorem addPackagesToIndex_eq (packages : Packages) (depsIndex : List DependencyRecord)
    (exclusions : List String) :
    addPackagesToIndex packages depsIndex exclusions
      = depsIndex ++ entries packages exclusions := by
  simp [addPackagesToIndex, entries, addEntriesToIndex_eq]

theorem indexOfFrom_nonneg (x : String) : ∀ (ys : List String) (i : Int), 0 ≤ i →
    (indexOfFrom x ys i > -1 ↔ x ∈ ys)
  | [], i, _ => by simp [indexOfFrom]
  | y :: ys, i, hi => by
    unfold indexOfFrom
    by_cases h : y = x
    · simp only [h, ite_true, List.mem_cons, true_or, iff_true]
      omega
    · have ih := indexOfFrom_nonneg x ys (i + 1) (by omega)
      have h' : ¬ x = y := fun e => h e.symm
      simp only [h, ite_false, ih, List.mem_cons, h', false_or]

theorem typeSelected_eq (inclusions : Value) (tag : String) :
    typeSelected (unrestricted inclusions) inclusions tag
      = some (unrestricted inclusions || hasTag inclusions tag) := by
  cases inclusions with
  | array items =>
    cases items with
    | nil => simp [typeSelected, unrestricted]
    | cons x xs =>
      have := indexOfFrom_nonneg tag (x :: xs) 0 (le_refl _)
      simp only [typeSelected, unrestricted, indexOf, hasTag, Bool.false_eq_true, ite_false,
        Bool.false_or, Option.some.injEq]
      by_cases h : tag ∈ x :: xs
      · simp [this.2 h, h]
      · have h2 : ¬ indexOfFrom tag (x :: xs) 0 > -1 := fun e => h (this.1 e)
        simp [h2, h]
  | _ => simp [typeSelected, unrestricted]

theorem noDepsTypeDefined_eq (inclusions : Value) :
    (isNullOrUndefined inclusions || !isArray inclusions ||
      (match inclusions with
       | .array items => decide (items.length = 0)
       | _ => false)) = unrestricted inclusions := by
  cases inclusions with
  | array items => cases items <;> simp [isNullOrUndefined, isArray, unrestricted]
  | _ => simp [isNullOrUndefined, isArray, unrestricted]

/-- The result of `getDependencies` as a selection of groups followed by the path step. -/
theorem getDependencies_eq (packageJson : PackageJson) (exclusions : List String)
    (inclusions : Value) (parentPath : String) :
    getDependencies packageJson exclusions inclusions parentPath =
      some (setPaths (selectGroups consulted packageJson exclusions inclusions) parentPath) := by
  obtain ⟨d, v, p, o⟩ := packageJson
  simp only [getDependencies, noDepsTypeDefined_eq, typeSelected_eq, selectGroups, consulted,
    contribution]
  congr 2
  cases d <;> cases v <;> cases p <;> cases o <;>
    simp only [Option.isSome_none, Option.isSome_some, Bool.and_false, Bool.and_true,
      Bool.false_eq_true, ite_false, List.append_nil, List.nil_append] <;>
    (repeat (any_goals split)) <;> simp [addPackagesToIndex_eq]

theorem recordsOf_append (p q : Packages) (exclusions : List String) :
    recordsOf (p ++ q) exclusions = recordsOf p exclusions ++ recordsOf q exclusions := by
  simp [recordsOf]

theorem contribution_eq (group : Option Packages) (exclusions : List String) :
    contribution group exclusions = recordsOf (groupEntries group) exclusions := by
  cases group <;> simp [contribution, groupEntries, entries, recordsOf, propertyOrder_nil]

theorem length_recordsOf (p : Packages) (exclusions : List String) :
    (recordsOf p exclusions).length + (p.filter (fun kv => exclusions.contains kv.1)).length
      = p.length := by
  induction p with
  | nil => simp [recordsOf]
  | cons kv rest ih =>
    simp only [recordsOf, List.length_map] at ih ⊢
    by_cases h : kv.1 ∈ exclusions
    · simp [List.filter_cons, h] at ih ⊢
      omega
    · simp [List.filter_cons, h] at ih ⊢
      omega

theorem length_filter_propertyOrder (p : Packages) (f : String × String → Bool) :
    ((propertyOrder p).filter f).length = (p.filter f).length :=
  ((propertyOrder_perm p).filter f).length_eq

theorem length_groupEntries (group : Option Packages) :
    (groupEntries group).length = groupSize group :=
  (propertyOrder_perm _).length_eq

theorem map_fullName_recordsOf (p : Packages) (exclusions : List String) :
    (recordsOf p exclusions).map (fun r => r.fullName)
      = (p.map (fun kv => kv.1)).filter (fun n => !exclusions.contains n) := by
  induction p with
  | nil => simp [recordsOf]
  | cons kv rest ih =>
    simp only [recordsOf] at ih ⊢
    by_cases h : kv.1 ∈ exclusions
    · simpa [List.filter_cons, h] using ih
    · simpa [List.filter_cons, h, newEntry] using ih

theorem mem_recordsOf {e : DependencyRecord} {p : Packages} {exclusions : List String}
    (h : e ∈ recordsOf p exclusions) :
    ∃ kv ∈ p, kv.1 ∉ exclusions ∧ e = newEntry kv.1 kv.2 := by
  simp only [recordsOf, List.mem_map, List.mem_filter] at h
  obtain ⟨kv, ⟨hkv, hex⟩, rfl⟩ := h
  exact ⟨kv, hkv, by simpa using hex, rfl⟩

theorem selectGroups_unrestricted (packageJson : PackageJson) (exclusions : List String)
    (inclusions : Value) (h : unrestricted inclusions = true) :
    selectGroups consulted packageJson exclusions inclusions
      = recordsOf (allEntries packageJson) exclusions := by
  obtain ⟨d, v, p, o⟩ := packageJson
  simp only [selectGroups, consulted, h, Bool.true_or, Bool.true_and, allEntries,
    recordsOf_append, contribution_eq]
  cases d <;> cases v <;> cases p <;> cases o <;>
    simp [groupEntries, recordsOf, propertyOrder_nil]

theorem mem_selectGroups {e : DependencyRecord} {c : Value → String → Option Packages → Bool}
    {packageJson : PackageJson} {exclusions : List String} {inclusions : Value}
    (h : e ∈ selectGroups c packageJson exclusions inclusions) :
    ∃ kv ∈ allEntries packageJson, kv.1 ∉ exclusions ∧ e = newEntry kv.1 kv.2 := by
  simp only [selectGroups, List.mem_append, contribution_eq] at h
  have key : ∀ g : Option Packages, ∀ b : Bool,
      e ∈ (if b = true then recordsOf (groupEntries g) exclusions else []) →
      ∃ kv ∈ groupEntries g, kv.1 ∉ exclusions ∧ e = newEntry kv.1 kv.2 := by
    intro g b hb
    cases b with
    | false => simp at hb
    | true => exact mem_recordsOf (by simpa using hb)
  rcases h with ((h | h) | h) | h
  all_goals
    obtain ⟨kv, hkv, hex, he⟩ := key _ _ h
    refine ⟨kv, ?_, hex, he⟩
    simp [allEntries, hkv]

theorem mem_setPaths {r : DependencyRecord} {depsIndex : List DependencyRecord} {p : String}
    (h : r ∈ setPaths depsIndex p) :
    ∃ e ∈ depsIndex, r = { e with path := some (p ++ ">" ++ e.fullName) } := by
  simp only [setPaths, List.mem_map] at h
  obtain ⟨e, he, rfl⟩ := h
  exact ⟨e, he, rfl⟩

theorem length_setPaths (depsIndex : List DependencyRecord) (p : String) :
    (setPaths depsIndex p).length = depsIndex.length := by
  simp [setPaths]

theorem map_fullName_setPaths (depsIndex : List DependencyRecord) (p : String) :
    (setPaths depsIndex p).map (fun r => r.fullName) = depsIndex.map (fun r => r.fullName) := by
  simp [setPaths, Function.comp_def]

theorem unrestricted_of_not_nonempty_array {inclusions : Value}
    (h : ∀ x xs, inclusions ≠ Value.array (x :: xs)) : unrestricted inclusions = true := by
  cases inclusions with
  | array items =>
    cases items with
    | nil => rfl
    | cons x xs => exact absurd rfl (h x xs)
  | _ => rfl

theorem map_entry_recordsOf (p : Packages) (exclusions : List String) :
    (recordsOf p exclusions).map (fun r => (r.fullName, r.version))
      = p.filter (fun kv => !exclusions.contains kv.1) := by
  induction p with
  | nil => simp [recordsOf]
  | cons kv rest ih =>
    simp only [recordsOf] at ih ⊢
    by_cases h : kv.1 ∈ exclusions
    · simpa [List.filter_cons, h] using ih
    · simpa [List.filter_cons, h, newEntry] using ih

theorem map_entry_setPaths (depsIndex : List DependencyRecord) (p : String) :
    (setPaths depsIndex p).map (fun r => (r.fullName, r.version))
      = depsIndex.map (fun r => (r.fullName, r.version)) := by
  simp [setPaths, Function.comp_def]

theorem consulted_array_congr {items₁ items₂ : List String} (h : items₁.Perm items₂)
    (tag : String) (group : Option Packages) :
    consulted (Value.array items₁) tag group = consulted (Value.array items₂) tag group := by
  have h1 : unrestricted (Value.array items₁) = unrestricted (Value.array items₂) := by
    have hl := h.length_eq
    cases items₁ <;> cases items₂ <;> simp [unrestricted] at hl ⊢
  have h2 : hasTag (Value.array items₁) tag = hasTag (Value.array items₂) tag := by
    simp only [hasTag]
    have := h.mem_iff (a := tag)
    by_cases c : tag ∈ items₁
    · simp [c, this.1 c]
    · have c' : tag ∉ items₂ := fun e => c (this.2 e)
      simp [c, c']
  simp [consulted, h1, h2]

theorem mem_insertByIndex {kv x : String × String} {l : Packages}
    (h : x ∈ insertByIndex kv l) : x = kv ∨ x ∈ l := by
  have := (insertByIndex_perm kv l).mem_iff.1 h
  simpa using this

theorem insertByIndex_sorted (kv : String × String) (l : Packages)
    (h : l.Pairwise (fun x y => (arrayIndex x.1).getD 0 ≤ (arrayIndex y.1).getD 0)) :
    (insertByIndex kv l).Pairwise
      (fun x y => (arrayIndex x.1).getD 0 ≤ (arrayIndex y.1).getD 0) := by
  induction l with
  | nil => simp [insertByIndex]
  | cons x xs ih =>
    rw [List.pairwise_cons] at h
    unfold insertByIndex
    split
    · next hle =>
      refine List.Pairwise.cons ?_ (List.Pairwise.cons h.1 h.2)
      intro y hy
      rcases List.mem_cons.1 hy with hy | hy
      · rw [hy]; exact hle
      · exact Nat.le_trans hle (h.1 y hy)
    · next hnle =>
      refine List.Pairwise.cons ?_ (ih h.2)
      intro y hy
      rcases mem_insertByIndex hy with hy | hy
      · rw [hy]; omega
      · exact h.1 y hy

theorem sortByIndex_sorted (l : Packages) :
    (sortByIndex l).Pairwise (fun x y => (arrayIndex x.1).getD 0 ≤ (arrayIndex y.1).getD 0) := by
  induction l with
  | nil => exact List.Pairwise.nil
  | cons kv rest ih => exact insertByIndex_sorted kv _ ih

/-! ## Properties of `alphaSort` -/

/-- C1, as stated, fails, whichever of the three records is the one without a valid version.
Three records named `pkg`: version `2.0.0`, no installed version, version `1.0.0`: the first
ties with the second and the second with the third, but the first sorts after the third.
Version `1.0.0`, the root with version `2.0.0`, the root without version: the first sorts
before the second, the second ties with the third, but the first sorts after the third.
No version, version `1.0.0`, the root with version `2.0.0`: the first ties with the second,
the second sorts before the third, but the first sorts after the third. -/
theorem alphaSort_mixed_versions_not_transitive :
    (alphaSort asciiLowerCase (packageData "pkg" (some "2.0.0") none)
        (packageData "pkg" none none) = some 0 ∧
      alphaSort asciiLowerCase (packageData "pkg" none none)
        (packageData "pkg" (some "1.0.0") none) = some 0 ∧
      alphaSort asciiLowerCase (packageData "pkg" (some "2.0.0") none)
        (packageData "pkg" (some "1.0.0") none) = some 1) ∧
    (alphaSort asciiLowerCase (packageData "pkg" (some "1.0.0") none)
        (packageData "pkg" (some "2.0.0") (some true)) = some (-1) ∧
      alphaSort asciiLowerCase (packageData "pkg" (some "2.0.0") (some true))
        (packageData "pkg" none (some true)) = some 0 ∧
      alphaSort asciiLowerCase (packageData "pkg" (some "1.0.0") none)
        (packageData "pkg" none (some true)) = some 1) ∧
    (alphaSort asciiLowerCase (packageData "pkg" none none)
        (packageData "pkg" (some "1.0.0") none) = some 0 ∧
      alphaSort asciiLowerCase (packageData "pkg" (some "1.0.0") none)
        (packageData "pkg" (some "2.0.0") (some true)) = some (-1) ∧
      alphaSort asciiLowerCase (packageData "pkg" none none)
        (packageData "pkg" (some "2.0.0") (some true)) = some 1) := by
  decide

/-- C1, amended: `alphaSort` is transitive on three records with names present, except
possibly when the three lowercase names are equal and exactly two of the three
`installedVersion` values are valid semantic versions. That is, if the number of valid versions
is not two, or the lowercase names are not all equal, then `alphaSort a b ≤ 0` and
`alphaSort b c ≤ 0` imply that `alphaSort a c` returns a number `≤ 0`. -/
theorem alphaSort_transitive (toLowerCase : String → String) (a b c : DependencyRecord)
    (na nb nc : String) (r₁ r₂ : Int)
    (ha : a.name = some na) (hb : b.name = some nb) (hc : c.name = some nc)
    (hv : ([a, b, c].filter (fun r => semver.valid r.installedVersion)).length ≠ 2 ∨
      ¬ (toLowerCase na = toLowerCase nb ∧ toLowerCase nb = toLowerCase nc))
    (h₁ : alphaSort toLowerCase a b = some r₁) (hr₁ : r₁ ≤ 0)
    (h₂ : alphaSort toLowerCase b c = some r₂) (hr₂ : r₂ ≤ 0) :
    ∃ r₃, alphaSort toLowerCase a c = some r₃ ∧ r₃ ≤ 0 := by
  rcases hv with hv | hn
  · rcases hA : semver.valid a.installedVersion with _ | _ <;>
      rcases hB : semver.valid b.installedVersion with _ | _ <;>
      rcases hC : semver.valid c.installedVersion with _ | _ <;>
      simp [List.filter, hA, hB, hC] at hv
    · exact alphaSort_le_trans_noVersion ha hb hc (by simp [hA]) (by simp [hB]) (by simp [hA])
        h₁ hr₁ h₂ hr₂
    · exact alphaSort_le_trans_noVersion ha hb hc (by simp [hA]) (by simp [hB]) (by simp [hA])
        h₁ hr₁ h₂ hr₂
    · exact alphaSort_le_trans_noVersion ha hb hc (by simp [hA]) (by simp [hC]) (by simp [hA])
        h₁ hr₁ h₂ hr₂
    · exact alphaSort_le_trans_noVersion ha hb hc (by simp [hB]) (by simp [hB]) (by simp [hC])
        h₁ hr₁ h₂ hr₂
    · exact alphaSort_le_trans_withVersion ha hb hc hA hB hC h₁ hr₁ h₂ hr₂
  · exact alphaSort_le_trans_of_names ha hb hc hn h₁ hr₁ h₂ hr₂

/-- Witness of `alphaSort_transitive`. With three valid versions: `pkg` 1.2.0 sorts before the
root `Pkg` 1.10.0 by version, that one before `pkg` 1.10.0 by the root flag, and `pkg` 1.2.0
does not sort after `pkg` 1.10.0. With exactly two valid versions and different names: `alpha`
2.0.0, `beta` without version, `gamma` 1.0.0. -/
theorem alphaSort_transitive_witness :
    (∃ r₃, alphaSort asciiLowerCase (packageData "pkg" (some "1.2.0") none)
      (packageData "pkg" (some "1.10.0") none) = some r₃ ∧ r₃ ≤ 0) ∧
    ([packageData "alpha" (some "2.0.0") none, packageData "beta" none none,
        packageData "gamma" (some "1.0.0") none].filter
          (fun r => semver.valid r.installedVersion)).length = 2 ∧
    (∃ r₃, alphaSort asciiLowerCase (packageData "alpha" (some "2.0.0") none)
      (packageData "gamma" (some "1.0.0") none) = some r₃ ∧ r₃ ≤ 0) :=
  ⟨alphaSort_transitive asciiLowerCase (packageData "pkg" (some "1.2.0") none)
      (packageData "Pkg" (some "1.10.0") (some true)) (packageData "pkg" (some "1.10.0") none)
      "pkg" "Pkg" "pkg" (-1) (-1) rfl rfl rfl (Or.inl (by decide)) (by decide) (by decide)
      (by decide) (by decide),
    by decide,
    alphaSort_transitive asciiLowerCase (packageData "alpha" (some "2.0.0") none)
      (packageData "beta" none none) (packageData "gamma" (some "1.0.0") none)
      "alpha" "beta" "gamma" (-1) (-1) rfl rfl rfl (Or.inr (by decide)) (by decide) (by decide)
      (by decide) (by decide)⟩

/-- C9: the name decides first. For records `a`, `b` with names `na`, `nb`: if the lowercase
of `na` is less than the lowercase of `nb` then `alphaSort a b = -1`, and if it is greater then
`alphaSort a b = 1`, whatever `installedVersion` and `isRootNode` are. -/
theorem alphaSort_name_tier (toLowerCase : String → String) (a b : DependencyRecord)
    (na nb : String) (ha : a.name = some na) (hb : b.name = some nb) :
    (strLt (toLowerCase na) (toLowerCase nb) = true → alphaSort toLowerCase a b = some (-1)) ∧
    (strLt (toLowerCase nb) (toLowerCase na) = true → alphaSort toLowerCase a b = some 1) := by
  constructor
  · intro h
    simp [alphaSort, ha, hb, h]
  · intro h
    have h' := strLt_asymm h
    simp [alphaSort, ha, hb, h, h']

/-- Witness of `alphaSort_name_tier`: `alpha` sorts before `Zeta`, also when `Zeta` is the
root and has the smaller version. -/
theorem alphaSort_name_tier_witness :
    alphaSort asciiLowerCase (packageData "alpha" (some "2.0.0") none)
      (packageData "Zeta" (some "1.0.0") (some true)) = some (-1) ∧
    alphaSort asciiLowerCase (packageData "Zeta" (some "1.0.0") (some true))
      (packageData "alpha" (some "2.0.0") none) = some 1 :=
  ⟨(alphaSort_name_tier asciiLowerCase _ _ "alpha" "Zeta" rfl rfl).1 (by decide),
    (alphaSort_name_tier asciiLowerCase _ _ "Zeta" "alpha" rfl rfl).2 (by decide)⟩

/-- C10: the version decides second. For records `a`, `b` whose names are equal ignoring case
and whose `installedVersion` values are valid semantic versions `va`, `vb` of different
precedence, `alphaSort a b` is `-1` when `va` precedes `vb` and `1` otherwise, whatever
`isRootNode` is. -/
theorem alphaSort_version_tier (toLowerCase : String → String) (a b : DependencyRecord)
    (na nb sa sb : String) (va vb : SemVer)
    (ha : a.name = some na) (hb : b.name = some nb)
    (hn : toLowerCase na = toLowerCase nb)
    (hsa : a.installedVersion = some sa) (hsb : b.installedVersion = some sb)
    (hva : semver.parse sa = some va) (hvb : semver.parse sb = some vb)
    (hne : semver.compare va vb ≠ 0) :
    alphaSort toLowerCase a b = some (if semver.compare va vb < 0 then -1 else 1) := by
  have hr := isCmp_compare.range va vb
  have hirr := strLt_irrefl (toLowerCase nb)
  simp only [alphaSort, ha, hb, hn, hirr, hsa, hsb, semver.valid, semver.lt, semver.gt, hva, hvb,
    Option.isSome_some, Bool.and_self, ite_true, Bool.false_eq_true, ite_false]
  rcases hr with h | h | h
  · simp [h]
  · exact absurd h hne
  · simp [h]

/-- Witness of `alphaSort_version_tier`: for the name `left-pad`, version `1.2.0` sorts before
`1.10.0`, although the second record is the root and although, as strings, `1.10.0` is less
than `1.2.0`. -/
theorem alphaSort_version_tier_witness :
    strLt "1.10.0" "1.2.0" = true ∧
    alphaSort asciiLowerCase (packageData "left-pad" (some "1.2.0") none)
      (packageData "left-pad" (some "1.10.0") (some true)) = some (-1) ∧
    alphaSort asciiLowerCase (packageData "left-pad" (some "1.10.0") (some true))
      (packageData "left-pad" (some "1.2.0") none) = some 1 :=
  ⟨by decide,
    alphaSort_version_tier asciiLowerCase _ _ "left-pad" "left-pad" "1.2.0" "1.10.0"
      ⟨1, 2, 0, [], []⟩ ⟨1, 10, 0, [], []⟩ rfl rfl rfl rfl rfl (by decide) (by decide)
      (by decide),
    alphaSort_version_tier asciiLowerCase _ _ "left-pad" "left-pad" "1.10.0" "1.2.0"
      ⟨1, 10, 0, [], []⟩ ⟨1, 2, 0, [], []⟩ rfl rfl rfl rfl rfl (by decide) (by decide)
      (by decide)⟩

/-- C11: an invalid version never fails. For records `a`, `b` whose names are present and equal
ignoring case, if at least one `installedVersion` is not a valid semantic version (absent, not
a string, or a string that is no version), `alphaSort a b` returns, its result is the one
of the `isRootNode` tier, and it is the result for the two records with `installedVersion`
removed. -/
theorem alphaSort_invalid_version (toLowerCase : String → String) (a b : DependencyRecord)
    (na nb : String)
    (ha : a.name = some na) (hb : b.name = some nb) (hn : toLowerCase na = toLowerCase nb)
    (hv : semver.valid a.installedVersion = false ∨ semver.valid b.installedVersion = false) :
    alphaSort toLowerCase a b = some (rootTier a b) ∧
    alphaSort toLowerCase a b
      = alphaSort toLowerCase { a with installedVersion := none }
          { b with installedVersion := none } := by
  have h1 : alphaSort toLowerCase a b = some (rootTier a b) :=
    alphaSort_of_names_eq_of_not_valid ha hb hn (by rcases hv with h | h <;> simp [h])
  have h2 : alphaSort toLowerCase { a with installedVersion := none }
        { b with installedVersion := none }
      = some (rootTier { a with installedVersion := none } { b with installedVersion := none }) :=
    alphaSort_of_names_eq_of_not_valid (a := { a with installedVersion := none })
      (b := { b with installedVersion := none }) ha hb hn rfl
  exact ⟨h1, h1.trans h2.symm⟩

/-- Witness of `alphaSort_invalid_version`: `pkg` with the version range `^1.0.0`, which is no
version, against the root `PKG` with version `1.0.0` is decided by the root flag. -/
theorem alphaSort_invalid_version_witness :
    semver.valid (some "^1.0.0") = false ∧
    alphaSort asciiLowerCase (packageData "pkg" (some "^1.0.0") none)
      (packageData "PKG" (some "1.0.0") (some true)) = some 1 ∧
    alphaSort asciiLowerCase (packageData "pkg" (some "^1.0.0") none)
        (packageData "PKG" (some "1.0.0") (some true))
      = alphaSort asciiLowerCase (packageData "pkg" none none)
          (packageData "PKG" none (some true)) :=
  ⟨by decide,
    (alphaSort_invalid_version asciiLowerCase (packageData "pkg" (some "^1.0.0") none)
      (packageData "PKG" (some "1.0.0") (some true)) "pkg" "PKG" rfl rfl (by decide)
      (Or.inl (by decide))).1.trans (by decide),
    (alphaSort_invalid_version asciiLowerCase (packageData "pkg" (some "^1.0.0") none)
      (packageData "PKG" (some "1.0.0") (some true)) "pkg" "PKG" rfl rfl (by decide)
      (Or.inl (by decide))).2⟩

/-- C12: root precedence. For records `a`, `b` whose names are equal ignoring case and whose
`installedVersion` is the same, if `a.isRootNode` is `true` and `b.isRootNode` is absent or
`false`, then `alphaSort a b = -1` and `alphaSort b a = 1`; and for any two records an absent
`isRootNode` and `isRootNode = false` give the same result, on either side. -/
theorem alphaSort_root_first (toLowerCase : String → String) (a b : DependencyRecord)
    (na nb : String)
    (ha : a.name = some na) (hb : b.name = some nb) (hn : toLowerCase na = toLowerCase nb)
    (hv : a.installedVersion = b.installedVersion)
    (hra : a.isRootNode = some true)
    (hrb : b.isRootNode = none ∨ b.isRootNode = some false) :
    alphaSort toLowerCase a b = some (-1) ∧ alphaSort toLowerCase b a = some 1 ∧
    (∀ x y : DependencyRecord,
      alphaSort toLowerCase x { y with isRootNode := none }
        = alphaSort toLowerCase x { y with isRootNode := some false } ∧
      alphaSort toLowerCase { x with isRootNode := none } y
        = alphaSort toLowerCase { x with isRootNode := some false } y) := by
  have hA : isRoot a = true := by simp [isRoot, hra]
  have hB : isRoot b = false := by rcases hrb with h | h <;> simp [isRoot, h]
  refine ⟨?_, ?_, ?_⟩
  · rw [alphaSort_of_same_version ha hb hn hv]
    simp [rootTier, hA, hB]
  · rw [alphaSort_of_same_version hb ha hn.symm hv.symm]
    simp [rootTier, hA, hB]
  · intro x y
    exact ⟨rfl, rfl⟩

/-- Witness of `alphaSort_root_first`: two records named `core-lib` with version `1.0.0`, one
flagged as root and one without the flag. -/
theorem alphaSort_root_first_witness :
    alphaSort asciiLowerCase (packageData "core-lib" (some "1.0.0") (some true))
      (packageData "core-lib" (some "1.0.0") none) = some (-1) ∧
    alphaSort asciiLowerCase (packageData "core-lib" (some "1.0.0") none)
      (packageData "core-lib" (some "1.0.0") (some true)) = some 1 :=
  ⟨(alphaSort_root_first asciiLowerCase (packageData "core-lib" (some "1.0.0") (some true))
      (packageData "core-lib" (some "1.0.0") none) "core-lib" "core-lib" rfl rfl rfl rfl rfl
      (Or.inl rfl)).1,
    (alphaSort_root_first asciiLowerCase (packageData "core-lib" (some "1.0.0") (some true))
      (packageData "core-lib" (some "1.0.0") none) "core-lib" "core-lib" rfl rfl rfl rfl rfl
      (Or.inl rfl)).2.1⟩

/-- C13: full equality. Two records with the same name, the same `installedVersion` (valid,
invalid or absent) and the same root flag, where an absent flag counts as `false`, compare as
`0` in both directions; in particular `alphaSort a a = 0` for every record with a name. -/
theorem alphaSort_equal_records (toLowerCase : String → String) (a b : DependencyRecord)
    (n : String) (ha : a.name = some n) (hb : b.name = some n)
    (hv : a.installedVersion = b.installedVersion) (hr : isRoot a = isRoot b) :
    alphaSort toLowerCase a b = some 0 ∧ alphaSort toLowerCase b a = some 0 ∧
    alphaSort toLowerCase a a = some 0 := by
  have key : ∀ x y : DependencyRecord, x.name = some n → y.name = some n →
      x.installedVersion = y.installedVersion → isRoot x = isRoot y →
      alphaSort toLowerCase x y = some 0 := by
    intro x y hx hy hxy hroot
    rw [alphaSort_of_same_version hx hy rfl hxy, rootTier_eq, hroot,
      (cmpRoot_eq_zero_iff _ _).2 rfl]
  exact ⟨key a b ha hb hv hr, key b a hb ha hv.symm hr.symm, key a a ha ha rfl rfl⟩

/-- Witness of `alphaSort_equal_records`: two records `left-pad` 1.2.0, neither of them the
root, the first without the flag and the second with `isRootNode = false`. -/
theorem alphaSort_equal_records_witness :
    alphaSort asciiLowerCase (packageData "left-pad" (some "1.2.0") none)
      (packageData "left-pad" (some "1.2.0") (some false)) = some 0 ∧
    alphaSort asciiLowerCase (packageData "left-pad" (some "1.2.0") (some false))
      (packageData "left-pad" (some "1.2.0") none) = some 0 :=
  ⟨(alphaSort_equal_records asciiLowerCase (packageData "left-pad" (some "1.2.0") none)
      (packageData "left-pad" (some "1.2.0") (some false)) "left-pad" rfl rfl rfl rfl).1,
    (alphaSort_equal_records asciiLowerCase (packageData "left-pad" (some "1.2.0") none)
      (packageData "left-pad" (some "1.2.0") (some false)) "left-pad" rfl rfl rfl rfl).2.1⟩

/-- C16: antisymmetry. For records `a`, `b` with names present, `alphaSort a b` returns one of
`-1`, `0`, `1`, and `alphaSort b a` returns the opposite number. -/
theorem alphaSort_antisymmetric (toLowerCase : String → String) (a b : DependencyRecord)
    (na nb : String) (ha : a.name = some na) (hb : b.name = some nb) :
    ∃ r : Int, alphaSort toLowerCase a b = some r ∧ (r = -1 ∨ r = 0 ∨ r = 1) ∧
      alphaSort toLowerCase b a = some (-r) := by
  by_cases h : semver.valid a.installedVersion = true ∧ semver.valid b.installedVersion = true
  · obtain ⟨sa, va, hsa, hva⟩ := (valid_eq_true_iff _).1 h.1
    obtain ⟨sb, vb, hsb, hvb⟩ := (valid_eq_true_iff _).1 h.2
    rw [alphaSort_of_valid ha hb hsa hsb hva hvb, alphaSort_of_valid hb ha hsb hsa hvb hva]
    exact ⟨_, rfl, isCmp_cmpWithVersion.range _ _,
      congrArg some (isCmp_cmpWithVersion.symm _ _)⟩
  · have hv : (semver.valid a.installedVersion && semver.valid b.installedVersion) = false := by
      rcases ha' : semver.valid a.installedVersion with _ | _ <;>
        rcases hb' : semver.valid b.installedVersion with _ | _ <;> simp_all
    have hv' : (semver.valid b.installedVersion && semver.valid a.installedVersion) = false := by
      rw [Bool.and_comm]; exact hv
    rw [alphaSort_of_not_valid ha hb hv, alphaSort_of_not_valid hb ha hv']
    exact ⟨_, rfl, isCmp_cmpNoVersion.range _ _,
      congrArg some (isCmp_cmpNoVersion.symm _ _)⟩

/-- Witness of `alphaSort_antisymmetric`: `alpha` against the root `Zeta` gives `-1`, and
`Zeta` against `alpha` gives `1`. -/
theorem alphaSort_antisymmetric_witness :
    alphaSort asciiLowerCase (packageData "alpha" (some "2.0.0") none)
      (packageData "Zeta" none (some true)) = some (-1) ∧
    alphaSort asciiLowerCase (packageData "Zeta" none (some true))
      (packageData "alpha" (some "2.0.0") none) = some 1 := by
  obtain ⟨r, h1, -, h3⟩ := alphaSort_antisymmetric asciiLowerCase
    (packageData "alpha" (some "2.0.0") none) (packageData "Zeta" none (some true))
    "alpha" "Zeta" rfl rfl
  have e : alphaSort asciiLowerCase (packageData "alpha" (some "2.0.0") none)
      (packageData "Zeta" none (some true)) = some (-1) := by decide
  rw [e] at h1
  cases h1
  exact ⟨e, h3⟩

/-- C17: ties. For records `a`, `b` with names `na`, `nb`, `alphaSort a b = 0` if and only if
the lowercase names are equal, and the `installedVersion` values are not both valid semantic
versions or are valid versions of equal precedence, and the truthiness of `a.isRootNode` equals
that of `b.isRootNode`. -/
theorem alphaSort_eq_zero_iff (toLowerCase : String → String) (a b : DependencyRecord)
    (na nb : String) (ha : a.name = some na) (hb : b.name = some nb) :
    alphaSort toLowerCase a b = some 0 ↔
      toLowerCase na = toLowerCase nb ∧
      ((semver.valid a.installedVersion && semver.valid b.installedVersion) = false ∨
        ∃ sa sb va vb, a.installedVersion = some sa ∧ b.installedVersion = some sb ∧
          semver.parse sa = some va ∧ semver.parse sb = some vb ∧ semver.compare va vb = 0) ∧
      isRoot a = isRoot b := by
  have hname := cmpUnits_codeUnits_eq_zero_iff (toLowerCase na) (toLowerCase nb)
  by_cases h : semver.valid a.installedVersion = true ∧ semver.valid b.installedVersion = true
  · obtain ⟨sa, va, hsa, hva⟩ := (valid_eq_true_iff _).1 h.1
    obtain ⟨sb, vb, hsb, hvb⟩ := (valid_eq_true_iff _).1 h.2
    rw [alphaSort_of_valid ha hb hsa hsb hva hvb, Option.some.injEq]
    unfold cmpWithVersion
    rw [lexCmp_eq_zero_iff, lexCmp_eq_zero_iff, hname, cmpRoot_eq_zero_iff]
    constructor
    · rintro ⟨h1, h2, h3⟩
      exact ⟨h1, Or.inr ⟨sa, sb, va, vb, hsa, hsb, hva, hvb, h2⟩, h3⟩
    · rintro ⟨h1, h2, h3⟩
      refine ⟨h1, ?_, h3⟩
      rcases h2 with h2 | ⟨sa', sb', va', vb', e1, e2, e3, e4, e5⟩
      · simp [h.1, h.2] at h2
      · rw [hsa] at e1
        rw [hsb] at e2
        cases e1
        cases e2
        rw [hva] at e3
        rw [hvb] at e4
        cases e3
        cases e4
        exact e5
  · have hv : (semver.valid a.installedVersion && semver.valid b.installedVersion) = false := by
      rcases ha' : semver.valid a.installedVersion with _ | _ <;>
        rcases hb' : semver.valid b.installedVersion with _ | _ <;> simp_all
    rw [alphaSort_of_not_valid ha hb hv, Option.some.injEq]
    unfold cmpNoVersion
    rw [lexCmp_eq_zero_iff, hname, cmpRoot_eq_zero_iff]
    constructor
    · rintro ⟨h1, h3⟩
      exact ⟨h1, Or.inl hv, h3⟩
    · rintro ⟨h1, -, h3⟩
      exact ⟨h1, h3⟩

/-- Witness of `alphaSort_eq_zero_iff`: `pkg` 1.0.0+build.1 and `PKG` 1.0.0+build.2 differ in
the build metadata only and tie; `pkg` 1.0.0 and `pkg` 1.0.1 do not tie. -/
theorem alphaSort_eq_zero_iff_witness :
    semver.parse "1.0.0+build.1" ≠ semver.parse "1.0.0+build.2" ∧
    alphaSort asciiLowerCase (packageData "pkg" (some "1.0.0+build.1") none)
      (packageData "PKG" (some "1.0.0+build.2") (some false)) = some 0 ∧
    alphaSort asciiLowerCase (packageData "pkg" (some "1.0.0") none)
      (packageData "pkg" (some "1.0.1") none) ≠ some 0 :=
  ⟨by decide,
    (alphaSort_eq_zero_iff asciiLowerCase (packageData "pkg" (some "1.0.0+build.1") none)
      (packageData "PKG" (some "1.0.0+build.2") (some false)) "pkg" "PKG" rfl rfl).2
      ⟨by decide, Or.inr ⟨"1.0.0+build.1", "1.0.0+build.2",
        ⟨1, 0, 0, [], [['b', 'u', 'i', 'l', 'd'], ['1']]⟩,
        ⟨1, 0, 0, [], [['b', 'u', 'i', 'l', 'd'], ['2']]⟩, rfl, rfl, by decide, by decide,
        by decide⟩, rfl⟩,
    by decide⟩

/-! ## Properties of `getDependencies` -/

/-- C2, as stated, fails: for the manifest `{dependencies: {a: "^1.0.0"}}` and `inclusions` the
string `"dev"` (not null, not undefined, not empty, and without the tag `prod`),
`getDependencies` returns the record of `a`, while a selection that consults a group only when
`inclusions` is null, undefined or empty or contains the tag of the group returns nothing. -/
theorem getDependencies_non_array_inclusions_consults :
    getDependencies ⟨some [("a", "^1.0.0")], none, none, none⟩ [] (Value.string "dev") ""
      = some [{ name := some "a", fullName := "a", version := "^1.0.0", installedVersion := none,
                isRootNode := none, path := some ">a" }] ∧
    setPaths (selectGroups consultedNullOrEmpty ⟨some [("a", "^1.0.0")], none, none, none⟩ []
      (Value.string "dev")) "" = [] := by
  decide

/-- C2, amended: `getDependencies` consults a group (tags `prod`, `dev`, `peer`, `opt`) if and
only if (`inclusions` is not a non-empty array, or it contains the tag of the group) and the
manifest defines the group; it returns exactly the records contributed by the consulted groups,
with their paths set; a group that is present but empty contributes nothing. -/
theorem getDependencies_consults (packageJson : PackageJson) (exclusions : List String)
    (inclusions : Value) (parentPath : String) :
    getDependencies packageJson exclusions inclusions parentPath
      = some (setPaths
          ((if consulted inclusions "prod" packageJson.dependencies
              then contribution packageJson.dependencies exclusions else []) ++
           (if consulted inclusions "dev" packageJson.devDependencies
              then contribution packageJson.devDependencies exclusions else []) ++
           (if consulted inclusions "peer" packageJson.peerDependencies
              then contribution packageJson.peerDependencies exclusions else []) ++
           (if consulted inclusions "opt" packageJson.optionalDependencies
              then contribution packageJson.optionalDependencies exclusions else []))
          parentPath) ∧
    (∀ tag group, consulted inclusions tag group = true ↔
      ((∀ x xs, inclusions ≠ Value.array (x :: xs)) ∨ ∃ items, inclusions = Value.array items ∧
        tag ∈ items) ∧ ∃ packages, group = some packages) ∧
    contribution (some []) exclusions = [] := by
  refine ⟨getDependencies_eq _ _ _ _, ?_, rfl⟩
  intro tag group
  cases group with
  | none => simp [consulted]
  | some g =>
    cases inclusions with
    | array items =>
      cases items with
      | nil => simp [consulted, unrestricted, hasTag]
      | cons x xs => simp [consulted, unrestricted, hasTag]
    | _ => simp [consulted, unrestricted, hasTag]

/-- C3: when `inclusions` is null, undefined or an empty array, `getDependencies` returns the
records of all entries of the defined groups, group after group, without the excluded names;
the number of records is the sum of the sizes of the groups minus the number of excluded
entries, and a package that occurs in several groups is counted once for each. -/
theorem getDependencies_no_restriction (packageJson : PackageJson) (exclusions : List String)
    (inclusions : Value) (parentPath : String)
    (hI : inclusions = Value.null ∨ inclusions = Value.undefined ∨
      inclusions = Value.array []) :
    getDependencies packageJson exclusions inclusions parentPath
      = some (setPaths (recordsOf (allEntries packageJson) exclusions) parentPath) ∧
    (getDependencies packageJson exclusions inclusions parentPath).map
        (fun rs => rs.map (fun r => r.fullName))
      = some (((allEntries packageJson).map (fun kv => kv.1)).filter
          (fun n => !exclusions.contains n)) ∧
    (getDependencies packageJson exclusions inclusions parentPath).map (fun rs => rs.length)
      = some ((groupSize packageJson.dependencies + groupSize packageJson.devDependencies +
          groupSize packageJson.peerDependencies + groupSize packageJson.optionalDependencies) -
        (excludedCount packageJson.dependencies exclusions +
          excludedCount packageJson.devDependencies exclusions +
          excludedCount packageJson.peerDependencies exclusions +
          excludedCount packageJson.optionalDependencies exclusions)) := by
  have hu : unrestricted inclusions = true := by
    rcases hI with h | h | h <;> subst h <;> rfl
  have e : getDependencies packageJson exclusions inclusions parentPath
      = some (setPaths (recordsOf (allEntries packageJson) exclusions) parentPath) := by
    rw [getDependencies_eq, selectGroups_unrestricted _ _ _ hu]
  refine ⟨e, ?_, ?_⟩
  · rw [e, Option.map_some', map_fullName_setPaths, map_fullName_recordsOf]
  · rw [e, Option.map_some', length_setPaths]
    have h := length_recordsOf (allEntries packageJson) exclusions
    simp only [allEntries, List.filter_append, List.length_append, groupEntries,
      length_filter_propertyOrder] at h
    have l1 := length_groupEntries packageJson.dependencies
    have l2 := length_groupEntries packageJson.devDependencies
    have l3 := length_groupEntries packageJson.peerDependencies
    have l4 := length_groupEntries packageJson.optionalDependencies
    simp only [groupEntries] at l1 l2 l3 l4
    rw [l1, l2, l3, l4] at h
    simp only [excludedCount, allEntries, groupEntries]
    congr 1
    omega

/-- Witness of `getDependencies_no_restriction`: in `manifestShared` the package `a` occurs in
two groups; with `c` excluded the result has `4 - 1 = 3` records, two of them for `a`. -/
theorem getDependencies_no_restriction_witness :
    (getDependencies manifestShared ["c"] (Value.array []) ">app").map
        (fun rs => rs.map (fun r => r.fullName)) = some ["a", "b", "a"] ∧
    (getDependencies manifestShared ["c"] (Value.array []) ">app").map (fun rs => rs.length)
      = some ((2 + 2 + 0 + 0) - 1) :=
  ⟨(getDependencies_no_restriction manifestShared ["c"] (Value.array []) ">app"
      (Or.inr (Or.inr rfl))).2.1.trans (by decide),
    (getDependencies_no_restriction manifestShared ["c"] (Value.array []) ">app"
      (Or.inr (Or.inr rfl))).2.2.trans (by decide)⟩

/-- C4: with `inclusions = ["prod"]`, `getDependencies` returns what it returns without
restriction for the manifest that keeps only `dependencies`, namely the records contributed by
`dependencies` alone; and excluding a name that is no package of `dependencies` changes
nothing. -/
theorem getDependencies_only_prod (packageJson : PackageJson) (exclusions : List String)
    (parentPath : String) :
    getDependencies packageJson exclusions (Value.array ["prod"]) parentPath
      = getDependencies ⟨packageJson.dependencies, none, none, none⟩ exclusions Value.null
          parentPath ∧
    getDependencies packageJson exclusions (Value.array ["prod"]) parentPath
      = some (setPaths (contribution packageJson.dependencies exclusions) parentPath) ∧
    ∀ x : String, (∀ kv ∈ groupEntries packageJson.dependencies, kv.1 ≠ x) →
      getDependencies packageJson (x :: exclusions) (Value.array ["prod"]) parentPath
        = getDependencies packageJson exclusions (Value.array ["prod"]) parentPath := by
  have key : ∀ E : List String,
      getDependencies packageJson E (Value.array ["prod"]) parentPath
        = some (setPaths (contribution packageJson.dependencies E) parentPath) := by
    intro E
    obtain ⟨d, v, p, o⟩ := packageJson
    rw [getDependencies_eq]
    cases d <;> simp [selectGroups, consulted, unrestricted, hasTag, contribution]
  refine ⟨?_, key _, ?_⟩
  · rw [key, getDependencies_eq]
    cases packageJson.dependencies <;>
      simp [selectGroups, consulted, unrestricted, hasTag, contribution]
  · intro x hx
    rw [key, key, contribution_eq, contribution_eq]
    congr 2
    simp only [recordsOf]
    congr 1
    apply List.filter_congr
    intro kv hkv
    have := hx kv hkv
    simp [this]

/-- Witness of `getDependencies_only_prod`: for `{dependencies: {a: "^1.0.0"},
devDependencies: {b: "^2.0.0"}}`, no exclusions, `inclusions = ["prod"]` and parent path `""` the
result is one record with `fullName` `a` and `path` `>a`; excluding `b` changes nothing. -/
theorem getDependencies_only_prod_witness :
    getDependencies manifestAB [] (Value.array ["prod"]) ""
      = some [{ name := some "a", fullName := "a", version := "^1.0.0", installedVersion := none,
                isRootNode := none, path := some ">a" }] ∧
    getDependencies manifestAB ["b"] (Value.array ["prod"]) ""
      = getDependencies manifestAB [] (Value.array ["prod"]) "" :=
  ⟨(getDependencies_only_prod manifestAB [] "").2.1.trans (by decide),
    (getDependencies_only_prod manifestAB [] "").2.2 "b" (by decide)⟩

/-- C5: `getDependencies` returns, and no record it returns comes from an excluded package
name: its `fullName` is not an element of `exclusions` and its `name` is not an excluded name,
whatever the manifest, `inclusions` and the parent path are. -/
theorem getDependencies_excludes (packageJson : PackageJson) (exclusions : List String)
    (inclusions : Value) (parentPath : String) :
    ∃ rs, getDependencies packageJson exclusions inclusions parentPath = some rs ∧
      ∀ r ∈ rs, r.fullName ∉ exclusions ∧ ∀ x ∈ exclusions, r.name ≠ some x := by
  refine ⟨_, getDependencies_eq _ _ _ _, ?_⟩
  intro r hr
  obtain ⟨e, he, rfl⟩ := mem_setPaths hr
  obtain ⟨kv, -, hex, rfl⟩ := mem_selectGroups he
  refine ⟨hex, ?_⟩
  intro x hx h
  simp only [newEntry, Option.some.injEq] at h
  exact hex (h ▸ hx)

/-- Witness of `getDependencies_excludes`: `a` is in two groups of `manifestShared`; with `a`
excluded, the records of `b` and `c` are returned, and neither is excluded. -/
theorem getDependencies_excludes_witness :
    (getDependencies manifestShared ["a"] Value.null "").map
        (fun rs => rs.map (fun r => r.fullName)) = some ["b", "c"] ∧
    "b" ∉ ["a"] := by
  obtain ⟨rs, h, hp⟩ := getDependencies_excludes manifestShared ["a"] Value.null ""
  have e : getDependencies manifestShared ["a"] Value.null ""
      = some [{ newEntry "b" "^2.0.0" with path := some ">b" },
              { newEntry "c" "^3.0.0" with path := some ">c" }] := by decide
  rw [e] at h
  cases h
  exact ⟨by rw [e]; rfl, (hp _ (List.mem_cons_self _ _)).1⟩

/-- C6: `getDependencies` returns, and every record `r` it returns has `r.path = parentPath +
">" + r.fullName`, also for the empty parent path; hence two returned records with the same
`fullName` have the same path. -/
theorem getDependencies_path (packageJson : PackageJson) (exclusions : List String)
    (inclusions : Value) (parentPath : String) :
    ∃ rs, getDependencies packageJson exclusions inclusions parentPath = some rs ∧
      (∀ r ∈ rs, r.path = some (parentPath ++ ">" ++ r.fullName)) ∧
      ∀ r ∈ rs, ∀ s ∈ rs, r.fullName = s.fullName → r.path = s.path := by
  refine ⟨_, getDependencies_eq _ _ _ _, ?_⟩
  have key : ∀ t ∈ setPaths (selectGroups consulted packageJson exclusions inclusions)
      parentPath, t.path = some (parentPath ++ ">" ++ t.fullName) := by
    intro t ht
    obtain ⟨e, -, rfl⟩ := mem_setPaths ht
    rfl
  refine ⟨key, ?_⟩
  intro r hr s hs h
  rw [key r hr, key s hs, h]

/-- Witness of `getDependencies_path`: the dependency `lodash` under the parent path `>my-app`
gets the path `>my-app>lodash`; and the two records of `a` in `manifestShared`, one for each
group, get the same path `>my-app>a`. -/
theorem getDependencies_path_witness :
    getDependencies manifestLodash [] Value.null ">my-app"
      = some [{ newEntry "lodash" "^4.17.21" with path := some ">my-app>lodash" }] ∧
    getDependencies manifestShared [] Value.null ">my-app"
      = some [{ newEntry "a" "^1.0.0" with path := some ">my-app>a" },
              { newEntry "b" "^2.0.0" with path := some ">my-app>b" },
              { newEntry "a" "^1.2.0" with path := some ">my-app>a" },
              { newEntry "c" "^3.0.0" with path := some ">my-app>c" }] ∧
    ({ newEntry "a" "^1.0.0" with path := some ">my-app>a" } : DependencyRecord).path
      = ({ newEntry "a" "^1.2.0" with path := some ">my-app>a" } : DependencyRecord).path := by
  obtain ⟨rs, h, -, hp⟩ := getDependencies_path manifestShared [] Value.null ">my-app"
  have e : getDependencies manifestShared [] Value.null ">my-app"
      = some [{ newEntry "a" "^1.0.0" with path := some ">my-app>a" },
              { newEntry "b" "^2.0.0" with path := some ">my-app>b" },
              { newEntry "a" "^1.2.0" with path := some ">my-app>a" },
              { newEntry "c" "^3.0.0" with path := some ">my-app>c" }] := by decide
  rw [e] at h
  cases h
  exact ⟨by decide, e, hp _ (by simp) _ (by simp) rfl⟩

/-- C7: for an `inclusions` value that is not a non-empty array (null, undefined, an empty
array, a string, a number, an object), `getDependencies` raises no error: it returns, although
`inclusions.indexOf` would throw for null, undefined, a number or an object, because that call
is not reached. The result is the one for `inclusions = null`: the records of all defined
groups. -/
theorem getDependencies_permissive (packageJson : PackageJson) (exclusions : List String)
    (inclusions : Value) (parentPath : String)
    (hI : ∀ x xs, inclusions ≠ Value.array (x :: xs)) :
    getDependencies packageJson exclusions inclusions parentPath
      = some (setPaths (recordsOf (allEntries packageJson) exclusions) parentPath) ∧
    getDependencies packageJson exclusions inclusions parentPath
      = getDependencies packageJson exclusions Value.null parentPath := by
  have hu := unrestricted_of_not_nonempty_array hI
  have hn : unrestricted Value.null = true := rfl
  rw [getDependencies_eq, getDependencies_eq, selectGroups_unrestricted _ _ _ hu,
    selectGroups_unrestricted _ _ _ hn]
  exact ⟨rfl, rfl⟩

/-- Witness of `getDependencies_permissive`: the number `5` as `inclusions`, on which
`indexOf` throws, and the string `"dev"` select both groups of `manifestAB`, as `null` does. -/
theorem getDependencies_permissive_witness :
    indexOf (Value.number 5) "prod" = none ∧ indexOf Value.null "prod" = none ∧
    getDependencies manifestAB [] (Value.number 5) ""
      = some [{ newEntry "a" "^1.0.0" with path := some ">a" },
              { newEntry "b" "^2.0.0" with path := some ">b" }] ∧
    getDependencies manifestAB [] (Value.string "dev") ""
      = getDependencies manifestAB [] Value.null "" :=
  ⟨rfl, rfl,
    (getDependencies_permissive manifestAB [] (Value.number 5) ""
      (fun _ _ h => Value.noConfusion h)).1.trans (by decide),
    (getDependencies_permissive manifestAB [] (Value.string "dev") ""
      (fun _ _ h => Value.noConfusion h)).2⟩

/-- C8: an absent group and a group present as an empty mapping give the same result, for each
of the four groups; a manifest that defines no group gives the empty sequence. -/
theorem getDependencies_absent_group (d v p o : Option Packages) (exclusions : List String)
    (inclusions : Value) (parentPath : String) :
    getDependencies ⟨none, v, p, o⟩ exclusions inclusions parentPath
      = getDependencies ⟨some [], v, p, o⟩ exclusions inclusions parentPath ∧
    getDependencies ⟨d, none, p, o⟩ exclusions inclusions parentPath
      = getDependencies ⟨d, some [], p, o⟩ exclusions inclusions parentPath ∧
    getDependencies ⟨d, v, none, o⟩ exclusions inclusions parentPath
      = getDependencies ⟨d, v, some [], o⟩ exclusions inclusions parentPath ∧
    getDependencies ⟨d, v, p, none⟩ exclusions inclusions parentPath
      = getDependencies ⟨d, v, p, some []⟩ exclusions inclusions parentPath ∧
    getDependencies ⟨none, none, none, none⟩ exclusions inclusions parentPath = some [] := by
  simp only [getDependencies_eq, selectGroups, consulted, contribution, entries, recordsOf,
    propertyOrder_nil]
  refine ⟨?_, ?_, ?_, ?_, ?_⟩ <;> simp [setPaths]

/-- C14, as stated, fails: in the manifest `manifestNumeric` the names of `dependencies` are
written in the order `b`, `10`, `2`, and `getDependencies` returns the records in the order
`2`, `10`, `b`. -/
theorem getDependencies_numeric_names_reordered :
    (manifestNumeric.dependencies.getD []).map (fun kv => kv.1) = ["b", "10", "2"] ∧
    (getDependencies manifestNumeric [] Value.null "").map
        (fun rs => rs.map (fun r => r.fullName)) = some ["2", "10", "b"] := by
  decide

/-- C14, amended: output order. The records returned by `getDependencies` are, in this order,
those of the entries that are not excluded of the consulted groups, the groups taken in the order
production, development, peer, optional and each group in the order in which JavaScript
enumerates its mapping: first the names that are array indices, in ascending numeric order,
then the other names in insertion order. A group without such a name is in insertion order. A
permutation of the tags inside `inclusions` does not change the result. -/
theorem getDependencies_order (packageJson : PackageJson) (exclusions : List String)
    (inclusions : Value) (parentPath : String) :
    (getDependencies packageJson exclusions inclusions parentPath).map
        (fun rs => rs.map (fun r => (r.fullName, r.version)))
      = some (((if consulted inclusions "prod" packageJson.dependencies
            then groupEntries packageJson.dependencies else []) ++
         (if consulted inclusions "dev" packageJson.devDependencies
            then groupEntries packageJson.devDependencies else []) ++
         (if consulted inclusions "peer" packageJson.peerDependencies
            then groupEntries packageJson.peerDependencies else []) ++
         (if consulted inclusions "opt" packageJson.optionalDependencies
            then groupEntries packageJson.optionalDependencies else [])).filter
          (fun kv => !exclusions.contains kv.1)) ∧
    (∀ group : Option Packages, ∃ indexed : Packages,
      groupEntries group
        = indexed ++ (group.getD []).filter (fun kv => !(arrayIndex kv.1).isSome) ∧
      indexed.Perm ((group.getD []).filter (fun kv => (arrayIndex kv.1).isSome)) ∧
      indexed.Pairwise (fun x y => (arrayIndex x.1).getD 0 ≤ (arrayIndex y.1).getD 0)) ∧
    (∀ group : Option Packages, (∀ kv ∈ group.getD [], arrayIndex kv.1 = none) →
      groupEntries group = group.getD []) ∧
    ∀ items₁ items₂ : List String, items₁.Perm items₂ →
      getDependencies packageJson exclusions (Value.array items₁) parentPath
        = getDependencies packageJson exclusions (Value.array items₂) parentPath := by
  refine ⟨?_, ?_, ?_, ?_⟩
  · rw [getDependencies_eq, Option.map_some', map_entry_setPaths]
    simp only [selectGroups, contribution_eq, List.map_append, List.filter_append]
    congr 2
    · congr 1
      · congr 1
        · split <;> simp [map_entry_recordsOf]
        · split <;> simp [map_entry_recordsOf]
      · split <;> simp [map_entry_recordsOf]
    · split <;> simp [map_entry_recordsOf]
  · intro group
    exact ⟨_, rfl, sortByIndex_perm _, sortByIndex_sorted _⟩
  · intro group h
    exact propertyOrder_of_no_index _ h
  · intro items₁ items₂ h
    rw [getDependencies_eq, getDependencies_eq]
    simp only [selectGroups, consulted_array_congr h]

/-- Witness of `getDependencies_order`: for `manifestAB`, whose names are no array indices, the
tags `dev`, `prod` and the tags `prod`, `dev` give the same result, the record of `a`
(production) before that of `b` (development); and the group `b`, `10`, `2` is enumerated as
`2`, `10`, `b`. -/
theorem getDependencies_order_witness :
    (getDependencies manifestAB [] (Value.array ["dev", "prod"]) "").map
        (fun rs => rs.map (fun r => r.fullName)) = some ["a", "b"] ∧
    getDependencies manifestAB [] (Value.array ["dev", "prod"]) ""
      = getDependencies manifestAB [] (Value.array ["prod", "dev"]) "" ∧
    groupEntries manifestAB.dependencies = [("a", "^1.0.0")] ∧
    groupEntries manifestNumeric.dependencies
      = [("2", "^1.0.0"), ("10", "^1.0.0"), ("b", "^1.0.0")] :=
  ⟨by decide,
    (getDependencies_order manifestAB [] (Value.array ["dev", "prod"]) "").2.2.2
      ["dev", "prod"] ["prod", "dev"] (List.Perm.swap "prod" "dev" []),
    (getDependencies_order manifestAB [] Value.null "").2.2.1 manifestAB.dependencies
      (by decide),
    by decide⟩

/-- C15: the path step rewrites. The path it sets does not depend on the path a record had:
applying the step twice with the same parent path gives what one application gives, applying it
with `p₁` and then with `p₂` gives what applying it with `p₂` gives, replacing the paths of the
records by any value `q` before the step changes nothing, and the step applied with `p₂` to the
result of `getDependencies` for `p₁` gives the result of `getDependencies` for `p₂`. -/
theorem setPaths_overwrites (depsIndex : List DependencyRecord) (p p₁ p₂ : String)
    (q : Option String) (packageJson : PackageJson) (exclusions : List String)
    (inclusions : Value) :
    setPaths (setPaths depsIndex p) p = setPaths depsIndex p ∧
    setPaths (setPaths depsIndex p₁) p₂ = setPaths depsIndex p₂ ∧
    setPaths (depsIndex.map (fun e => { e with path := q })) p = setPaths depsIndex p ∧
    (getDependencies packageJson exclusions inclusions p₁).map (fun rs => setPaths rs p₂)
      = getDependencies packageJson exclusions inclusions p₂ := by
  have key : ∀ (xs : List DependencyRecord) (a b : String),
      setPaths (setPaths xs a) b = setPaths xs b := by
    intro xs a b
    simp [setPaths, Function.comp_def]
  refine ⟨key _ _ _, key _ _ _, ?_, ?_⟩
  · simp [setPaths, Function.comp_def]
  · rw [getDependencies_eq, getDependencies_eq, Option.map_some', key]

/-- C18: frame of the path step. The step keeps the number and the order of the records, and
position by position it keeps `name`, `fullName`, `version`, `installedVersion` and
`isRootNode` and sets `path`; the records returned by `getDependencies`, their paths
removed, are the records built from the entries of the consulted groups. -/
theorem setPaths_frame (depsIndex : List DependencyRecord) (p : String)
    (packageJson : PackageJson) (exclusions : List String) (inclusions : Value) :
    (setPaths depsIndex p).length = depsIndex.length ∧
    List.Forall₂
      (fun r e => r.name = e.name ∧ r.fullName = e.fullName ∧ r.version = e.version ∧
        r.installedVersion = e.installedVersion ∧ r.isRootNode = e.isRootNode ∧
        r.path = some (p ++ ">" ++ e.fullName))
      (setPaths depsIndex p) depsIndex ∧
    (getDependencies packageJson exclusions inclusions p).map
        (fun rs => rs.map (fun r => { r with path := none }))
      = some (selectGroups consulted packageJson exclusions inclusions) := by
  refine ⟨length_setPaths _ _, ?_, ?_⟩
  · induction depsIndex with
    | nil => exact List.Forall₂.nil
    | cons e es ih => exact List.Forall₂.cons ⟨rfl, rfl, rfl, rfl, rfl, rfl⟩ ih
  · rw [getDependencies_eq, Option.map_some']
    congr 1
    have hnone : ∀ e ∈ selectGroups consulted packageJson exclusions inclusions,
        e.path = none := by
      intro e he
      obtain ⟨kv, -, -, rfl⟩ := mem_selectGroups he
      rfl
    generalize selectGroups consulted packageJson exclusions inclusions = xs at hnone
    induction xs with
    | nil => rfl
    | cons e es ih =>
      have h1 := hnone e (List.mem_cons_self _ _)
      have h2 := ih (fun x hx => hnone x (List.mem_cons_of_mem _ hx))
      simp only [setPaths, List.map_cons, List.cons.injEq] at h2 ⊢
      refine ⟨?_, h2⟩
      cases e
      simp only at h1
      subst h1
      rfl

end LicenseReport
